import Mathlib

/-!
Shallow embedding of the decision-scraper crawl core (Python) in Lean 4, with
theorems settling the frozen specification claims.

Modules embedded (from `src/decision_scraper/`):
- `dedup.py` (URL normalization and the seen-set),
- `link_discovery.py` (URL scoring, domain filtering, ranking),
- `resources.py` (adaptive worker-count calculation),
- `scraper.py` (name normalization, fuzzy entity dedup, BFS orchestration,
  multi-site batching),
- the parts of Python's `urllib.parse` (CPython 3.11 `urlsplit` / `urlunsplit`
  / `urlparse` / `urlunparse`) that `dedup.py` and `link_discovery.py` call.

Modelling conventions:
- Python `str` is modelled as `String` at API boundaries and `List Char`
  internally; Python string operations (`strip`, `lower`, `split`, `in`,
  slicing) are modelled character-exactly for the ASCII range. `str.lower`,
  `str.strip` and `str.split` are modelled on the ASCII whitespace/letter
  sets; the claims and all concrete inputs are ASCII.
- Machine integers are `Int`/`Nat` (no overflow is reachable in this code),
  floats (`psutil` percentages, MB arithmetic) are `ℚ`; every comparison and
  truncation the code performs is order-exact under this translation.
- The two exception paths of `urlsplit` that only validate (`ValueError` for
  mismatched IPv6 brackets, `_checknetloc` for non-ASCII netlocs) are omitted:
  they never alter components, and no claim or input here reaches them.
- `asyncio` wave concurrency is linearized: tasks of a wave run in wave order.
  All shared-state mutation in the source happens between await points, so
  this is one of the admissible interleavings; the claims proved about the
  model (queue cap, error accounting) are order-independent.
-/

/-! ## Characters and Python string primitives -/

/-- Python `str.lower` / `.lower()` on an ASCII character (`Char.toLower`
maps only `A`-`Z`; all inputs in scope are ASCII). -/
def pyLower (c : Char) : Char := c.toLower

/-- Python whitespace class used by `str.strip()` / `str.split()` (ASCII part). -/
def pyIsSpace (c : Char) : Bool :=
  c = ' ' || c = '\t' || c = '\n' || c = '\u000d' || c = '\u000b' || c = '\u000c'

/-- Python `s.rstrip(c)` for a single strip character. -/
def pyRstrip (c : Char) (l : List Char) : List Char :=
  (l.reverse.dropWhile (· = c)).reverse

/-- Python `s.strip()` (strip whitespace from both ends). -/
def pyStrip (l : List Char) : List Char :=
  ((l.dropWhile pyIsSpace).reverse.dropWhile pyIsSpace).reverse

/-- Python `needle in hay` for strings: contiguous substring occurrence. -/
def pyInStr (needle : List Char) : List Char → Bool
  | [] => needle.isEmpty
  | hay@(_ :: t) => needle.isPrefixOf hay || pyInStr needle t

/-- Python `s.split()` (split on whitespace runs, dropping empty pieces);
`acc` is the current word accumulated in reverse. -/
def pySplitWsAux : List Char → List Char → List (List Char)
  | [], acc => if acc.isEmpty then [] else [acc.reverse]
  | c :: rest, acc =>
    if pyIsSpace c then
      if acc.isEmpty then pySplitWsAux rest [] else acc.reverse :: pySplitWsAux rest []
    else
      pySplitWsAux rest (c :: acc)

def pySplitWs (l : List Char) : List (List Char) := pySplitWsAux l []

/-- Python `" ".join(s.split())`: collapse whitespace runs to single spaces. -/
def collapseWs (l : List Char) : List Char := List.intercalate [' '] (pySplitWs l)

/-! ## CPython 3.11 `urllib.parse` model

Faithful to `urlsplit`, `urlunsplit`, `urlparse`, `urlunparse`,
`_splitnetloc` and `_splitparams` of CPython 3.11 (the interpreter the
repository targets). -/

/-- `scheme_chars` of `urllib.parse` (`Char.isAlpha`/`isDigit` are exactly
the ASCII letter/digit tests Python applies here). -/
def isSchemeChar (c : Char) : Bool :=
  c.isAlpha || c.isDigit || c = '+' || c = '-' || c = '.'

/-- WHATWG C0-control-or-space class, lstripped from URLs by `urlsplit`. -/
def isC0OrSpace (c : Char) : Bool := c.toNat ≤ 0x20

/-- The three `_UNSAFE_URL_BYTES_TO_REMOVE` removed from URLs by `urlsplit`. -/
def isUnsafeUrlByte (c : Char) : Bool := c = '\t' || c = '\u000d' || c = '\n'

/-- `url.lstrip(_WHATWG_C0_CONTROL_OR_SPACE)` followed by removal of
tab/CR/LF, as done at the top of `urlsplit`. -/
def urlsplitClean (l : List Char) : List Char :=
  (l.dropWhile isC0OrSpace).filter (fun c => !isUnsafeUrlByte c)

/-- Head-is-ASCII-alpha test: `url[0].isascii() and url[0].isalpha()`. -/
def headIsAsciiAlpha : List Char → Bool
  | [] => false
  | c :: _ => c.isAlpha

/-- The scheme-extraction step of `urlsplit`: if the first `:` is preceded by
a nonempty run of scheme characters starting with an ASCII letter, split off
the (lowercased) scheme. Returns `(scheme, rest)`. -/
def splitScheme (url : List Char) : List Char × List Char :=
  match url.dropWhile (· ≠ ':') with
  | [] => ([], url)
  | _ :: rest =>
    let pre := url.takeWhile (· ≠ ':')
    if !pre.isEmpty && headIsAsciiAlpha url && pre.all isSchemeChar then
      (pre.map pyLower, rest)
    else
      ([], url)

/-- A netloc delimiter for `_splitnetloc` (`'/?#'`). -/
def isNetlocDelim (c : Char) : Bool := c = '/' || c = '?' || c = '#'

/-- The netloc-extraction step of `urlsplit`: if the URL starts with `//`,
split the netloc (up to the first `/?#`) from the rest. -/
def splitNetloc (url : List Char) : List Char × List Char :=
  match url with
  | '/' :: '/' :: rest =>
    (rest.takeWhile (fun c => !isNetlocDelim c), rest.dropWhile (fun c => !isNetlocDelim c))
  | _ => ([], url)

/-- `url.split('#', 1)` keeping both halves (identity second half `[]` when
there is no `#`), as `urlsplit` does for the fragment. -/
def splitOnFirst (d : Char) (url : List Char) : List Char × List Char :=
  (url.takeWhile (· ≠ d), (url.dropWhile (· ≠ d)).drop 1)

/-- `uses_params` of `urllib.parse` (CPython 3.11). -/
def usesParamsList : List String :=
  ["", "ftp", "hdl", "prospero", "http", "imap", "https", "shttp", "rtsp",
   "rtsps", "rtspu", "sip", "sips", "mms", "sftp", "tel"]

/-- `uses_netloc` of `urllib.parse` (CPython 3.11). -/
def usesNetlocList : List String :=
  ["", "ftp", "http", "gopher", "nntp", "telnet", "imap", "wais", "file",
   "mms", "https", "shttp", "snews", "prospero", "rtsp", "rtsps", "rtspu",
   "rsync", "svn", "svn+ssh", "sftp", "nfs", "git", "git+ssh", "ws", "wss"]

def schemeUsesParams (s : List Char) : Bool := usesParamsList.contains (String.mk s)

def schemeUsesNetloc (s : List Char) : Bool := usesNetlocList.contains (String.mk s)

/-- Split the last path segment for `_splitparams`: returns
`(everything up to and including the last slash, segment after it)`. -/
def splitAtLastSlash (l : List Char) : List Char × List Char :=
  let r := l.reverse
  ((r.dropWhile (· ≠ '/')).reverse, (r.takeWhile (· ≠ '/')).reverse)

/-- `_splitparams(url)`: split `;params` out of the last path segment (or out
of the whole path when it has no slash). Only called when `;` is present. -/
def splitParams (path : List Char) : List Char × List Char :=
  if path.contains '/' then
    let (pre, seg) := splitAtLastSlash path
    if seg.contains ';' then
      (pre ++ seg.takeWhile (· ≠ ';'), (seg.dropWhile (· ≠ ';')).drop 1)
    else
      (path, [])
  else
    splitOnFirst ';' path

/-- Result record of `urlparse` (six components). -/
structure UrlParts where
  scheme : List Char
  netloc : List Char
  path : List Char
  params : List Char
  query : List Char
  fragment : List Char
deriving DecidableEq, Repr

/-- CPython 3.11 `urlparse(url)` (with default `scheme=''`,
`allow_fragments=True`). -/
def pyUrlparse (url : List Char) : UrlParts :=
  let u0 := urlsplitClean url
  let sr := splitScheme u0
  let nr := splitNetloc sr.2
  let fr := splitOnFirst '#' nr.2
  let qr := splitOnFirst '?' fr.1
  let pp :=
    if schemeUsesParams sr.1 && qr.1.contains ';' then splitParams qr.1
    else (qr.1, [])
  ⟨sr.1, nr.1, pp.1, pp.2, qr.2, fr.2⟩

/-- CPython 3.11 `urlunsplit((scheme, netloc, url, query, fragment))`. -/
def pyUrlunsplit (scheme netloc path query fragment : List Char) : List Char :=
  let url :=
    if !netloc.isEmpty ||
        (!scheme.isEmpty && schemeUsesNetloc scheme && path.take 2 ≠ ['/', '/']) then
      ('/' :: '/' :: netloc) ++
        (if !path.isEmpty && path.take 1 ≠ ['/'] then '/' :: path else path)
    else path
  let url := if !scheme.isEmpty then scheme ++ ':' :: url else url
  let url := if !query.isEmpty then url ++ '?' :: query else url
  if !fragment.isEmpty then url ++ '#' :: fragment else url

/-- CPython 3.11 `urlunparse`: re-attach params to the path, then unsplit. -/
def pyUrlunparse (p : UrlParts) : List Char :=
  pyUrlunsplit p.scheme p.netloc
    (if !p.params.isEmpty then p.path ++ ';' :: p.params else p.path)
    p.query p.fragment

/-! ## `dedup.py`: URL normalization and the seen-set -/

/-- `path.rstrip("/") or "/"` — the path component used by `normalize_url`. -/
def normSlashPath (path : List Char) : List Char :=
  let s := pyRstrip '/' path
  if s.isEmpty then ['/'] else s

/-- `dedup.normalize_url`: lowercase scheme and netloc, strip all trailing
slashes from the path (keeping `/` for the empty result), and reassemble
with empty params, query and fragment. -/
def normalize_url (url : String) : String :=
  let parsed := pyUrlparse url.data
  String.mk (pyUrlunparse
    ⟨parsed.scheme.map pyLower, parsed.netloc.map pyLower,
     normSlashPath parsed.path, [], [], []⟩)

/-- `URLDeduplicator.is_new`: the seen-set is modelled as the list of
normalized URLs recorded so far; returns the is-new flag and the new state. -/
def dedupIsNew (seen : List String) (url : String) : Bool × List String :=
  let n := normalize_url url
  if seen.contains n then (false, seen) else (true, n :: seen)

/-! ## `link_discovery.py`: scoring, filtering, ranking -/

def HIGH_PRIORITY_KEYWORDS : List String :=
  ["about", "team", "leadership", "executive", "management",
   "staff", "people", "founders", "directors", "board",
   "our-team", "our-people", "who-we-are", "meet-the-team",
   "meet-us", "bios", "principals", "partners",
   "doctor", "dentist", "provider", "attorney", "our-doctor",
   "our-staff", "our-providers", "meet-our",
   "about-us", "our-story", "our-company", "who-we-are",
   "why-us", "why-choose", "credentials", "license",
   "owner", "our-owner", "meet-the-owner"]

def MEDIUM_PRIORITY_KEYWORDS : List String :=
  ["contact", "contact-us", "get-in-touch", "reach-us",
   "reviews", "testimonial", "warranty", "guarantee"]

def SKIP_KEYWORDS : List String :=
  ["blog", "news", "press", "article", "post", "category",
   "tag", "cart", "shop", "product", "pricing", "faq",
   "privacy", "terms", "cookie", "sitemap", "feed", "rss",
   "login", "signup", "register", "account", "checkout",
   "wp-content", "wp-admin", "wp-json",
   "cdn-cgi", ".pdf", ".jpg", ".png", ".gif", ".svg",
   ".css", ".js", ".zip", ".xml", ".ico", ".woff", ".ttf"]

/-- The lowercased path `urlparse(url).path.lower()` that `score_url` scans. -/
def scoredPath (url : String) : List Char := (pyUrlparse url.data).path.map pyLower

/-- `link_discovery.score_url`: first matching keyword tier wins, skip tier
checked first; keywords match as substrings of the lowercased path. -/
def score_url (url : String) : Int :=
  let path := scoredPath url
  if SKIP_KEYWORDS.any (fun kw => pyInStr kw.data path) then -1
  else if HIGH_PRIORITY_KEYWORDS.any (fun kw => pyInStr kw.data path) then 2
  else if MEDIUM_PRIORITY_KEYWORDS.any (fun kw => pyInStr kw.data path) then 1
  else 0

/-- `link_discovery.get_base_domain`. -/
def get_base_domain (url : String) : String :=
  String.mk ((pyUrlparse url.data).netloc.map pyLower)

/-- A crawl4ai link dict as consumed by `filter_internal_links`
(`link.get("href", "")`: an absent key behaves like `""`). -/
structure LinkDict where
  href : Option String
deriving DecidableEq, Repr

/-- The candidate step of the `filter_internal_links` loop body: skip empty
hrefs, resolve against the base URL, drop off-domain links, drop skip-scored
links, otherwise keep `(score, absolute)`. The relative-URL resolver
(`urllib.parse.urljoin`, an external stdlib collaborator) is a parameter. -/
def linkCandidate (urljoin : String → String → String) (base_domain base_url : String)
    (link : LinkDict) : Option (Int × String) :=
  if link.href.getD "" = "" then none
  else if pyInStr base_domain.data
      ((pyUrlparse (urljoin base_url (link.href.getD "")).data).netloc.map pyLower) then
    if 0 ≤ score_url (urljoin base_url (link.href.getD "")) then
      some (score_url (urljoin base_url (link.href.getD "")),
            urljoin base_url (link.href.getD ""))
    else none
  else none

/-- Python string `<`: lexicographic comparison by code point. -/
def pyStrLt : List Char → List Char → Bool
  | [], [] => false
  | [], _ :: _ => true
  | _ :: _, [] => false
  | a :: as, b :: bs =>
    if a.toNat < b.toNat then true
    else if b.toNat < a.toNat then false
    else pyStrLt as bs

/-- Python string `<=`. -/
def pyStrLe (a b : List Char) : Bool := !(pyStrLt b a)

/-- Python's `candidates.sort(key=lambda x: (-x[0], x[1]))` comparison, as a
total preorder: descending score, then lexicographic URL. The sort key
determines the element, so every correct sort produces the same list as
Python's stable Timsort; the model sorts by straight insertion. -/
def candLe (a b : Int × String) : Prop :=
  (decide (b.1 < a.1) || (decide (a.1 = b.1) && pyStrLe a.2.data b.2.data)) = true

instance candLe.instDecidable : DecidableRel candLe := fun _ _ => instDecidableEqBool _ _

/-- `link_discovery.filter_internal_links`. -/
def filter_internal_links (urljoin : String → String → String) (links : List LinkDict)
    (base_domain base_url : String) : List String :=
  let candidates := links.filterMap (linkCandidate urljoin base_domain base_url)
  (candidates.insertionSort candLe).map (·.2)

/-! ## `models.py`: result records -/

/-- `models.DecisionMaker` (pydantic model; optional fields are `Option`). -/
structure DecisionMaker where
  name : String
  title : Option String := none
  email : Option String := none
  phone : Option String := none
  linkedin : Option String := none
deriving DecidableEq, Repr

/-- `models.ScrapeResult`. -/
structure ScrapeResult where
  url : String
  decision_makers : List DecisionMaker := []
  pages_crawled : Nat := 0
  pages_skipped : Nat := 0
  errors : List String := []
deriving DecidableEq, Repr

/-! ## `scraper.py`: name normalization and fuzzy entity dedup -/

/-- The honorific alternatives of the `_NAME_PREFIXES` regex
`^(dr\.?|mr\.?|mrs\.?|ms\.?|prof\.?|rev\.?)\s+` (applied after lowering). -/
def NAME_HONORIFICS : List String := ["dr", "mr", "mrs", "ms", "prof", "rev"]

/-- Match one honorific alternative at the head: the word, an optional dot,
then at least one whitespace character (consumed greedily, as the regex
does); returns the remainder on success. -/
def matchHonorific (w : List Char) (l : List Char) : Option (List Char) :=
  if w.isPrefixOf l then
    let r := l.drop w.length
    let r := match r with
      | '.' :: rest => rest
      | _ => r
    match r with
    | c :: _ => if pyIsSpace c then some (r.dropWhile pyIsSpace) else none
    | [] => none
  else none

/-- `_NAME_PREFIXES.sub("", n)`: remove one leading honorific, if present.
The regex is anchored at `^`, so at most one substitution happens; the
alternatives never match the same string with different extents, so trying
them in order is exact. -/
def stripHonorific (l : List Char) : List Char :=
  match NAME_HONORIFICS.findSome? (fun w => matchHonorific w.data l) with
  | some r => r
  | none => l

/-- The credential alternatives of the suffix regex
`,?\s*(dds|dmd|md|do|phd|esq|jr\.?|sr\.?|ii|iii|iv)\.?\s*$`. -/
def CRED_WORDS : List String :=
  ["dds", "dmd", "md", "do", "phd", "esq", "jr", "sr", "ii", "iii", "iv"]

/-- Dots allowed right after a credential word: `jr`/`sr` carry their own
optional dot inside the group, and every alternative is followed by the
group-level optional dot. -/
def credDotBudget (w : String) : Nat := if w = "jr" || w = "sr" then 2 else 1

/-- Does the credential-suffix regex match starting at this position?
`,?` must consume a leading comma if present (no alternative starts with a
comma), `\s*` must consume the whole whitespace run (every alternative
starts with a letter), then a word, up to the dot budget of dots, and
whitespace to the end of the string. -/
def credMatchesHere (l : List Char) : Bool :=
  let l1 := match l with
    | ',' :: r => r
    | _ => l
  let l2 := l1.dropWhile pyIsSpace
  CRED_WORDS.any (fun w =>
    w.data.isPrefixOf l2 &&
      (let r := l2.drop w.data.length
       let dots := (r.takeWhile (· = '.')).length
       decide (dots ≤ credDotBudget w) && (r.drop dots).all pyIsSpace))

/-- Index of the leftmost credential-suffix match (the anchor `$` makes the
match run to the end, so `re.sub` truncates the string there). -/
def credMatchIdx : List Char → Option Nat
  | [] => none
  | l@(_ :: rest) =>
    if credMatchesHere l then some 0 else (credMatchIdx rest).map (· + 1)

/-- `re.sub(r",?\s*(dds|...|iv)\.?\s*$", "", n)`. -/
def stripCredSuffix (l : List Char) : List Char :=
  match credMatchIdx l with
  | some i => l.take i
  | none => l

/-- `scraper._normalize_name`: strip, lower, drop a leading honorific, drop a
trailing credential suffix, collapse whitespace. -/
def normalizeName (name : String) : String :=
  String.mk (collapseWs (stripCredSuffix (stripHonorific ((pyStrip name.data).map pyLower))))

/-- `scraper._is_duplicate`: fuzzy name match against the kept records
(the Python locals `norm`/`other_norm` are inlined). -/
def isDuplicate (dm : DecisionMaker) (existing : List DecisionMaker) : Bool :=
  if normalizeName dm.name = "" then true
  else existing.any (fun other =>
    normalizeName dm.name = normalizeName other.name ||
      (decide (3 ≤ (normalizeName dm.name).length) &&
          decide (3 ≤ (normalizeName other.name).length) &&
        (pyInStr (normalizeName dm.name).data (normalizeName other.name).data ||
          pyInStr (normalizeName other.name).data (normalizeName dm.name).data)))

/-- The entity-dedup pass of `scrape_decision_makers` (lines 171-174):
first-seen wins, later duplicates are dropped. -/
def dedupeMakers (makers : List DecisionMaker) : List DecisionMaker :=
  makers.foldl (fun unique dm => if isDuplicate dm unique then unique else unique ++ [dm]) []

/-! ## `resources.py`: adaptive worker count -/

/-- `ResourceMonitor` configuration (constructor arguments with defaults). -/
structure ResourceConfig where
  max_memory_percent : ℚ := 75
  min_free_memory_mb : ℤ := 512
  max_workers : ℤ := 10
  min_workers : ℤ := 1

/-- One `psutil`/`os` sample: `virtual_memory().percent`,
`virtual_memory().available` (bytes) and `os.cpu_count()` (which may be
`None`). -/
structure HostSnapshot where
  memory_percent : ℚ
  memory_available_bytes : ℕ
  cpu_count : Option ℕ

/-- `mem.available / (1024 * 1024)`. -/
def availableMb (host : HostSnapshot) : ℚ :=
  (host.memory_available_bytes : ℚ) / (1024 * 1024)

/-- Python `int()` applied to a float: truncation toward zero
(`Int.tdiv` on the exact rational). -/
def pyIntTrunc (q : ℚ) : ℤ := Int.tdiv q.num q.den

/-- `ResourceMonitor.calculate_optimal_workers`. `os.cpu_count() or 2`
falls back to 2 on a falsy result; `int(usable_mb / 200)` truncates. -/
def calculate_optimal_workers (cfg : ResourceConfig) (host : HostSnapshot) : ℤ :=
  let cpu_count : ℕ := match host.cpu_count with
    | none => 2
    | some n => if n = 0 then 2 else n
  if cfg.max_memory_percent ≤ host.memory_percent then cfg.min_workers
  else if availableMb host < (cfg.min_free_memory_mb : ℚ) then cfg.min_workers
  else
    let usable_mb := availableMb host - (cfg.min_free_memory_mb : ℚ)
    let memory_based : ℤ := pyIntTrunc (usable_mb / 200)
    let cpu_based : ℤ := (cpu_count : ℤ) * 2
    max (min (min memory_based cpu_based) cfg.max_workers) cfg.min_workers

/-! ## `scraper.py` / `crawler.py`: orchestration model

The external collaborator (crawl4ai's `crawler.arun`) is modelled as an
oracle giving, per URL, either a raised exception or a result object with a
success flag, the page's internal links and the raw LLM extraction string.
`CrawlManager.crawl_and_extract` and `crawl_for_links` wrap that oracle
exactly as `crawler.py` does. The LLM-output parser
(`CrawlManager._parse_extraction`, pure JSON/pydantic plumbing none of the
claims touch) and `urllib.parse.urljoin` are function parameters of the
model, collected in the `Collab` record. -/

/-- Outcome of one `crawler.arun(url)` call: an exception, or a result with
`success`, `links["internal"]` and `extracted_content`. -/
inductive ArunOutcome where
  | raise (msg : String)
  | ok (success : Bool) (links : List LinkDict) (extracted : Option String)

/-- What `await crawl_manager.crawl_and_extract(page_url)` does from the
orchestrator's point of view: either the call itself raises (e.g. browser
start-up failure), or it runs `arun` and post-processes. -/
inductive PageCall where
  | raised (msg : String)
  | fetched (a : ArunOutcome)

/-- The collaborators of one run. -/
structure Collab where
  /-- Per-URL behaviour of `arun` inside `crawl_for_links`. -/
  linksOf : String → ArunOutcome
  /-- Per-URL behaviour of `crawl_and_extract`. -/
  pageOf : String → PageCall
  /-- `CrawlManager._parse_extraction`. -/
  parseExtraction : String → List DecisionMaker
  /-- `urllib.parse.urljoin`. -/
  urljoin : String → String → String

/-- `CrawlManager.crawl_and_extract` (crawler.py lines 139-171): a raised
`arun` and an unsuccessful result both yield `([], [])` without raising;
a successful result yields the parsed extraction (empty/absent
`extracted_content` is falsy) and the page's internal links. -/
def crawl_and_extract (parseExtraction : String → List DecisionMaker)
    (a : ArunOutcome) : List DecisionMaker × List LinkDict :=
  match a with
  | .raise _ => ([], [])
  | .ok false _ _ => ([], [])
  | .ok true links extracted =>
    (match extracted with
     | none => []
     | some s => if s = "" then [] else parseExtraction s,
     links)

/-- `CrawlManager.crawl_for_links` (crawler.py lines 106-137): internal links
and a success flag; exceptions and unsuccessful results both yield
`([], false)`. -/
def crawl_for_links (a : ArunOutcome) : List LinkDict × Bool :=
  match a with
  | .ok true links _ => (links, true)
  | _ => ([], false)

/-- Mutable state of one `scrape_decision_makers` run. -/
structure RunState where
  frontier : List String
  seen : List String
  total_queued : Nat
  pages_crawled : Nat
  pages_skipped : Nat
  errors : List String
  all_decision_makers : List DecisionMaker
deriving Repr

/-- The loop body of `_expand_frontier` (scraper.py lines 108-114): walk the
prioritized links, stopping at the page cap, enqueueing each unseen URL. -/
def expandLoop (max_pages : Nat) (st : RunState) : List String → RunState
  | [] => st
  | link_url :: rest =>
    if max_pages ≤ st.total_queued then st
    else
      match dedupIsNew st.seen link_url with
      | (true, seen') =>
        expandLoop max_pages
          { st with
            frontier := st.frontier ++ [link_url],
            seen := seen',
            total_queued := st.total_queued + 1 } rest
      | (false, _) => expandLoop max_pages st rest

/-- `_expand_frontier(internal_links)` (scraper.py lines 103-115). -/
def expandFrontier (C : Collab) (max_pages : Nat) (base_domain base_url : String)
    (internal_links : List LinkDict) (st : RunState) : RunState :=
  expandLoop max_pages st (filter_internal_links C.urljoin internal_links base_domain base_url)

/-- `_process_page(page_url)` (scraper.py lines 135-154): on success extend
the records, count the page as crawled and (below the cap) feed its links
back into the frontier; on a raised exception append one error string keyed
by the URL and count the page as skipped. -/
def processPage (C : Collab) (max_pages : Nat) (base_domain base_url : String)
    (st : RunState) (page_url : String) : RunState :=
  match C.pageOf page_url with
  | .raised msg =>
    { st with
      errors := st.errors ++ [page_url ++ ": " ++ msg],
      pages_skipped := st.pages_skipped + 1 }
  | .fetched a =>
    let (makers, new_links) := crawl_and_extract C.parseExtraction a
    let st := { st with
      all_decision_makers := st.all_decision_makers ++ makers,
      pages_crawled := st.pages_crawled + 1 }
    if !new_links.isEmpty && st.total_queued < max_pages then
      expandFrontier C max_pages base_domain base_url new_links st
    else st

/-- One wave (scraper.py lines 158-167): drain the whole frontier, then
process every drained page. -/
def processWave (C : Collab) (max_pages : Nat) (base_domain base_url : String)
    (st : RunState) : RunState :=
  let wave := st.frontier
  wave.foldl (processPage C max_pages base_domain base_url) { st with frontier := [] }

/-- The wave loop, with explicit fuel. A wave beyond the first only runs if
the previous wave enqueued something, and every enqueue increments
`total_queued`, which never exceeds `max max_pages 1`; hence
`max_pages + 1` waves always suffice to drain the frontier, and
`scrapeRun` below supplies exactly that fuel. -/
def wavesLoop (C : Collab) (max_pages : Nat) (base_domain base_url : String) :
    Nat → RunState → RunState
  | 0, st => st
  | fuel + 1, st =>
    if st.frontier.isEmpty then st
    else wavesLoop C max_pages base_domain base_url fuel
      (processWave C max_pages base_domain base_url st)

/-- `scrape_decision_makers`, up to the final `ScrapeResult` assembly:
seed the frontier with the root (marking it seen, `total_queued = 1`),
pre-expand from the homepage link probe when it succeeds, then run waves. -/
def scrapeRun (C : Collab) (url : String) (max_pages : Nat) : RunState :=
  let base_domain := get_base_domain url
  let st0 : RunState :=
    { frontier := [url], seen := [normalize_url url], total_queued := 1,
      pages_crawled := 0, pages_skipped := 0, errors := [],
      all_decision_makers := [] }
  let st1 :=
    match crawl_for_links (C.linksOf url) with
    | (internal_links, true) => expandFrontier C max_pages base_domain url internal_links st0
    | (_, false) => st0
  wavesLoop C max_pages base_domain url (max_pages + 1) st1

/-- `scrape_decision_makers` (scraper.py lines 54-191): run, dedupe the
accumulated records, assemble the `ScrapeResult`. -/
def scrape_decision_makers (C : Collab) (url : String) (max_pages : Nat) : ScrapeResult :=
  let st := scrapeRun C url max_pages
  { url := url,
    decision_makers := dedupeMakers st.all_decision_makers,
    pages_crawled := st.pages_crawled,
    pages_skipped := st.pages_skipped,
    errors := st.errors }

/-- The error-only result built by `scrape_multiple`'s exception handler:
`ScrapeResult(url=site_url, errors=[str(e)])`. -/
def errorOnlyResult (site_url msg : String) : ScrapeResult :=
  { url := site_url, errors := [msg] }

/-- `scrape_multiple` (scraper.py lines 194-217), with the per-site call
abstracted as `siteScrape` (in the source it is `scrape_decision_makers`,
whose own exceptions the loop catches): sites run sequentially, a raised
site becomes an error-only result, the loop always continues. -/
def scrape_multiple (siteScrape : String → Except String ScrapeResult)
    (urls : List String) : List ScrapeResult :=
  urls.foldl (fun results site_url =>
    results ++ [match siteScrape site_url with
      | .ok result => result
      | .error e => errorOnlyResult site_url e]) []

/-! ## Spec-side definitions

These state the claims' wording, to be compared against the definitions
translated from the source. -/

/-- The spec's entity match rule: equal normalized names, or both of length
at least 3 and one a substring of the other. -/
def specSamePerson (n m : String) : Prop :=
  n = m ∨ (3 ≤ n.length ∧ 3 ≤ m.length ∧ (n.data <:+: m.data ∨ m.data <:+: n.data))

/-- Name normalization exactly as claim C2 words it: lowercased, trimmed,
leading honorific stripped, trailing credential suffix stripped — with no
whitespace collapsing step. -/
def claimedNormalizeName (name : String) : String :=
  String.mk (stripCredSuffix (stripHonorific ((pyStrip name.data).map pyLower)))

/-- Path treatment exactly as claim C5 words it: strip a (single) trailing
slash, except that the root path `/` is preserved. -/
def claimedStripSlash (path : List Char) : List Char :=
  if path = ['/'] then ['/']
  else if path.getLast? = some '/' then path.dropLast else path

/-- URL normalization exactly as claim C5 words it: lowercase scheme and
host, drop the fragment and all query parameters (nothing is said about
path params, so they are kept), strip a trailing slash except for the
root. -/
def claimedNormalizeUrl (url : String) : String :=
  let parsed := pyUrlparse url.data
  String.mk (pyUrlunparse
    ⟨parsed.scheme.map pyLower, parsed.netloc.map pyLower,
     claimedStripSlash parsed.path, parsed.params, [], []⟩)

/-- Amended path rule: remove every trailing slash, one at a time. -/
def specDropTrailingSlashes (path : List Char) : List Char :=
  if _h : path.getLast? = some '/' then specDropTrailingSlashes path.dropLast else path
termination_by path.length
decreasing_by
  cases path with
  | nil => simp at _h
  | cons a l => simp [List.length_dropLast]

/-- URL normalization as amended: lowercase scheme and host, drop the
fragment, all query parameters and all path parameters, remove every
trailing slash from the path, and use `/` when the path is left empty. -/
def specNormalizeUrl (url : String) : String :=
  let parsed := pyUrlparse url.data
  let p := specDropTrailingSlashes parsed.path
  String.mk (pyUrlunparse
    ⟨parsed.scheme.map pyLower, parsed.netloc.map pyLower,
     if p.isEmpty then ['/'] else p, [], [], []⟩)

/-- The collaborator used by concrete runs: link probe fails, every page
fetch returns an unsuccessful result, extraction yields nothing, hrefs are
already absolute. -/
def trivialCollab : Collab :=
  { linksOf := fun _ => .ok false [] none,
    pageOf := fun _ => .fetched (.ok false [] none),
    parseExtraction := fun _ => [],
    urljoin := fun _ href => href }

/-- A collaborator whose page fetches fail inside `arun` (network/timeout):
`crawl_and_extract` catches the exception itself. -/
def fetchFailCollab : Collab :=
  { trivialCollab with pageOf := fun _ => .fetched (.raise "timeout") }

/-- A collaborator whose `crawl_and_extract` call itself raises, which is
the only failure the orchestrator's `except` clause sees. -/
def raiseCollab : Collab :=
  { trivialCollab with pageOf := fun _ => .raised "boom" }

/-! ## General helper lemmas -/

/-- `pyInStr` decides contiguous-substring occurrence. -/
theorem pyInStr_iff_infix {n h : List Char} : pyInStr n h = true ↔ n <:+: h := by
  induction h with
  | nil => simp [pyInStr, List.isEmpty_iff]
  | cons a t ih => simp [pyInStr, ih, List.infix_cons_iff]

/-! ## Claim C4: worker-count bounds -/

/-- Claim C4 as stated is false: with an inverted configuration
(`min_workers = 2 > 1 = max_workers`) and memory usage at the ceiling, the
function returns `min_workers = 2`, which is not `≤ max_workers`. The
`ResourceMonitor` constructor accepts such a configuration. -/
theorem worker_bound_counterexample :
    calculate_optimal_workers
        { max_memory_percent := 75, min_free_memory_mb := 512,
          max_workers := 1, min_workers := 2 }
        ⟨80, 0, some 4⟩ = 2 ∧
      ¬ (calculate_optimal_workers
          { max_memory_percent := 75, min_free_memory_mb := 512,
            max_workers := 1, min_workers := 2 }
          ⟨80, 0, some 4⟩ ≤ 1) := by
  constructor
  · decide
  · decide

/-- Amended claim C4: whenever `min_workers ≤ max_workers`,
`calculate_optimal_workers` returns a value in `[min_workers, max_workers]`;
and unconditionally on the configuration, it returns exactly `min_workers`
whenever the sampled memory-used percentage reaches the ceiling or the
available memory is below the floor. -/
theorem worker_bound_amended (cfg : ResourceConfig) (host : HostSnapshot) :
    (cfg.min_workers ≤ cfg.max_workers →
      cfg.min_workers ≤ calculate_optimal_workers cfg host ∧
        calculate_optimal_workers cfg host ≤ cfg.max_workers) ∧
    ((cfg.max_memory_percent ≤ host.memory_percent ∨
        availableMb host < (cfg.min_free_memory_mb : ℚ)) →
      calculate_optimal_workers cfg host = cfg.min_workers) := by
  unfold calculate_optimal_workers
  constructor
  · intro hmm
    by_cases h1 : cfg.max_memory_percent ≤ host.memory_percent
    · simp [h1, hmm, le_refl]
    · by_cases h2 : availableMb host < (cfg.min_free_memory_mb : ℚ)
      · simp [h1, h2, hmm, le_refl]
      · simp only [h1, h2, if_false]
        refine ⟨le_max_right _ _, max_le (le_trans (min_le_right _ _) le_rfl) hmm⟩
  · intro hdisj
    by_cases h1 : cfg.max_memory_percent ≤ host.memory_percent
    · simp [h1]
    · have h2 : availableMb host < (cfg.min_free_memory_mb : ℚ) := by
        rcases hdisj with h | h
        · exact absurd h h1
        · exact h
      simp [h1, h2]

/-- Witness for `worker_bound_amended` at the default configuration and a
high-memory sample: both implications are discharged — the interval bound
under the default ordered workers, and the memory-pressure clause at a
sample over the ceiling. -/
theorem worker_bound_amended_witness :
    (({} : ResourceConfig).min_workers ≤ ({} : ResourceConfig).max_workers) ∧
    (({} : ResourceConfig).min_workers ≤ calculate_optimal_workers {} ⟨80, 0, some 4⟩ ∧
      calculate_optimal_workers {} ⟨80, 0, some 4⟩ ≤ ({} : ResourceConfig).max_workers) ∧
    (({} : ResourceConfig).max_memory_percent ≤
      (⟨80, 0, some 4⟩ : HostSnapshot).memory_percent) ∧
    calculate_optimal_workers {} ⟨80, 0, some 4⟩ = ({} : ResourceConfig).min_workers :=
  ⟨by decide, (worker_bound_amended {} ⟨80, 0, some 4⟩).1 (by decide),
    by decide,
    (worker_bound_amended {} ⟨80, 0, some 4⟩).2 (Or.inl (by decide))⟩

/-! ## Claim C9: skip-tier precedence in URL scoring -/

/-- Claim C9: `score_url` returns `-1` exactly when some skip keyword occurs
as a substring of the lowercased path — in particular the skip tier wins
even when a high- or medium-priority keyword also occurs; and the two
widened examples score `-1` (`"post" ⊆ "/compost"`, `".js" ⊆ "/data.json"`). -/
theorem skip_tier_precedence :
    (∀ url : String,
      score_url url = -1 ↔ ∃ kw ∈ SKIP_KEYWORDS, pyInStr kw.data (scoredPath url) = true) ∧
    score_url "https://x.com/compost" = -1 ∧
    score_url "https://x.com/data.json" = -1 ∧
    score_url "https://x.com/blog/team" = -1 := by
  refine ⟨fun url => ?_, by decide, by decide, by decide⟩
  unfold score_url
  by_cases h : SKIP_KEYWORDS.any (fun kw => pyInStr kw.data (scoredPath url)) = true
  · simp only [scoredPath] at h ⊢
    rw [if_pos h]
    simp only [List.any_eq_true] at h
    exact iff_of_true rfl h
  · simp only [scoredPath] at h ⊢
    rw [if_neg h]
    simp only [List.any_eq_true] at h
    have : ¬ (∃ kw ∈ SKIP_KEYWORDS, pyInStr kw.data ((pyUrlparse url.data).path.map pyLower) = true) := h
    refine iff_of_false ?_ this
    split <;> (try split) <;> omega

/-- Witness for `skip_tier_precedence`: a path that contains both a skip
keyword and a high-priority keyword still scores `-1`. -/
theorem skip_tier_precedence_witness :
    score_url "https://x.com/blog/our-team" = -1 :=
  (skip_tier_precedence.1 "https://x.com/blog/our-team").mpr (by decide)

/-! ## Claim C2: entity dedup match rule -/

/-- Claim C2 as stated is false: the source's normalization additionally
collapses internal whitespace runs, so `"John  Doe"` and `"John Doe"`
deduplicate to one record even though their claim-normalized forms (which
keep the double space) are neither equal nor substrings of one another. -/
theorem entity_dedup_counterexample :
    (dedupeMakers [{name := "John  Doe"}, {name := "John Doe"}]).length = 1 ∧
    ¬ specSamePerson (claimedNormalizeName "John  Doe") (claimedNormalizeName "John Doe") ∧
    claimedNormalizeName "John  Doe" ≠ "" ∧ claimedNormalizeName "John Doe" ≠ "" := by
  refine ⟨by decide, ?_, by decide, by decide⟩
  unfold specSamePerson
  decide

/-- Amended claim C2: `_is_duplicate` matches exactly the spec rule applied
to the source's normalization, which lowercases, trims, strips one leading
honorific and one trailing credential suffix, and also collapses internal
whitespace runs to single spaces; an empty normalized name is always a
duplicate; the earliest record is kept. The three examples of the claim
hold. -/
theorem entity_dedup_match_rule_amended :
    (∀ (dm : DecisionMaker) (existing : List DecisionMaker),
      isDuplicate dm existing = true ↔
        (normalizeName dm.name = "" ∨
          ∃ other ∈ existing,
            specSamePerson (normalizeName dm.name) (normalizeName other.name))) ∧
    dedupeMakers [{name := "Dr. Jane Smith, MD"}, {name := "Jane Smith"}] =
      [{name := "Dr. Jane Smith, MD"}] ∧
    (dedupeMakers [{name := "John Doe"}, {name := "Jane Roe"}]).length = 2 ∧
    dedupeMakers [{name := " "}] = [] := by
  refine ⟨fun dm existing => ?_, by decide, by decide, by decide⟩
  unfold isDuplicate
  by_cases hnorm : normalizeName dm.name = ""
  · simp [hnorm]
  · rw [if_neg hnorm]
    simp only [List.any_eq_true, Bool.or_eq_true, Bool.and_eq_true, decide_eq_true_iff,
      pyInStr_iff_infix, specSamePerson]
    constructor
    · rintro ⟨other, hmem, heq | ⟨⟨h1, h2⟩, h3⟩⟩
      · exact Or.inr ⟨other, hmem, Or.inl heq⟩
      · exact Or.inr ⟨other, hmem, Or.inr ⟨h1, h2, h3⟩⟩
    · rintro (h | ⟨other, hmem, heq | ⟨h1, h2, h3⟩⟩)
      · exact absurd h hnorm
      · exact ⟨other, hmem, Or.inl heq⟩
      · exact ⟨other, hmem, Or.inr ⟨⟨h1, h2⟩, h3⟩⟩

/-- Witness for `entity_dedup_match_rule_amended`: a last-name-only mention
is recognized as a duplicate of the full name. -/
theorem entity_dedup_match_rule_witness :
    isDuplicate {name := "Dr. Madaan"} [{name := "Gauri Madaan"}] = true :=
  (entity_dedup_match_rule_amended.1 {name := "Dr. Madaan"} [{name := "Gauri Madaan"}]).mpr
    (by right; exact ⟨{name := "Gauri Madaan"}, by decide, by right; refine ⟨by decide, by decide, ?_⟩; left; decide⟩)

/-! ## Claim C3: single-page failure accounting -/

/-- Claim C3 as stated is false: a fetch failure (the `arun` call raising,
e.g. a network error or timeout) is caught inside
`CrawlManager.crawl_and_extract`, which returns empty results without
raising; the orchestrator therefore appends no error string and counts the
page as crawled, not skipped. -/
theorem fetch_failure_counterexample :
    (scrapeRun fetchFailCollab "https://a.test" 5).errors = [] ∧
    (scrapeRun fetchFailCollab "https://a.test" 5).pages_skipped = 0 ∧
    (scrapeRun fetchFailCollab "https://a.test" 5).pages_crawled = 1 := by
  refine ⟨by decide, by decide, by decide⟩

/-- Amended claim C3: the failure the orchestrator's handler does see — the
`crawl_and_extract` call itself raising — is recovered locally: exactly one
error string keyed by the page URL is appended, the page is counted in
`pages_skipped` (and not in `pages_crawled`), nothing else in the run state
changes, and processing of the remaining pages of the wave continues from
that state. A fetch/render/timeout failure inside `crawl_and_extract`
instead yields zero results silently and counts as crawled. -/
theorem page_failure_error_accounting_amended
    (C : Collab) (max_pages : Nat) (base_domain base_url : String)
    (st : RunState) (page_url msg : String)
    (hraise : C.pageOf page_url = .raised msg) :
    processPage C max_pages base_domain base_url st page_url =
      { st with errors := st.errors ++ [page_url ++ ": " ++ msg],
                pages_skipped := st.pages_skipped + 1 } ∧
    ∀ (pre post : List String),
      (pre ++ page_url :: post).foldl (processPage C max_pages base_domain base_url) st =
        post.foldl (processPage C max_pages base_domain base_url)
          (processPage C max_pages base_domain base_url
            (pre.foldl (processPage C max_pages base_domain base_url) st) page_url) := by
  constructor
  · unfold processPage
    rw [hraise]
  · intro pre post
    rw [List.foldl_append, List.foldl_cons]

/-- Witness for `page_failure_error_accounting_amended` on a concrete
raising collaborator and start state. -/
theorem page_failure_error_accounting_witness :
    processPage raiseCollab 5 "a.test" "https://a.test"
        { frontier := [], seen := [], total_queued := 1, pages_crawled := 0,
          pages_skipped := 0, errors := [], all_decision_makers := [] }
        "https://a.test" =
      { frontier := [], seen := [], total_queued := 1, pages_crawled := 0,
        pages_skipped := 0 + 1, errors := [] ++ ["https://a.test" ++ ": " ++ "boom"],
        all_decision_makers := [] } :=
  (page_failure_error_accounting_amended raiseCollab 5 "a.test" "https://a.test"
    { frontier := [], seen := [], total_queued := 1, pages_crawled := 0,
      pages_skipped := 0, errors := [], all_decision_makers := [] }
    "https://a.test" "boom" rfl).1

/-! ## Claims C8 and C10: the multi-site batch -/

/-- `scrape_multiple` is pointwise: each input URL yields exactly the result
of its own site scrape (error-wrapped), independent of the other sites. -/
theorem scrape_multiple_eq_map (s : String → Except String ScrapeResult)
    (urls : List String) :
    scrape_multiple s urls = urls.map (fun u =>
      match s u with
      | .ok result => result
      | .error e => errorOnlyResult u e) := by
  unfold scrape_multiple
  suffices h : ∀ acc : List ScrapeResult,
      urls.foldl (fun results site_url =>
        results ++ [match s site_url with
          | .ok result => result
          | .error e => errorOnlyResult site_url e]) acc =
        acc ++ urls.map (fun u =>
          match s u with
          | .ok result => result
          | .error e => errorOnlyResult u e) by
    simpa using h []
  induction urls with
  | nil => intro acc; simp
  | cons u t ih =>
    intro acc
    rw [List.foldl_cons, ih, List.map_cons]
    simp

/-- Claim C8: a site whose scrape raises contributes exactly the error-only
result at its own position, the batch keeps one result per input URL, and
every other position's result is exactly determined by its own site's
scrape, unaffected by the failure. -/
theorem batch_isolation (s : String → Except String ScrapeResult)
    (urls : List String) (i : Nat) (e : String) (hi : i < urls.length)
    (hfail : s urls[i] = .error e) :
    (scrape_multiple s urls).length = urls.length ∧
    (scrape_multiple s urls)[i]? = some (errorOnlyResult urls[i] e) ∧
    ∀ j : Nat, j ≠ i → (scrape_multiple s urls)[j]? =
      (urls[j]?).map (fun u =>
        match s u with
        | .ok result => result
        | .error e' => errorOnlyResult u e') := by
  rw [scrape_multiple_eq_map]
  refine ⟨by simp, ?_, fun j _ => by rw [List.getElem?_map]⟩
  rw [List.getElem?_map, List.getElem?_eq_getElem hi]
  simp [hfail]

/-- The two-site batch of the spec's example: `a.test` raises, `b.test`
succeeds. -/
def siteScrapeAB : String → Except String ScrapeResult := fun u =>
  if u = "https://a.test" then .error "boom"
  else .ok { url := u, decision_makers := [], pages_crawled := 1,
             pages_skipped := 0, errors := [] }

/-- Witness for `batch_isolation` on the spec's two-site example. -/
theorem batch_isolation_witness :
    (scrape_multiple siteScrapeAB ["https://a.test", "https://b.test"]).length = 2 ∧
    (scrape_multiple siteScrapeAB ["https://a.test", "https://b.test"])[0]? =
      some (errorOnlyResult "https://a.test" "boom") ∧
    (scrape_multiple siteScrapeAB ["https://a.test", "https://b.test"])[1]? =
      some { url := "https://b.test", decision_makers := [], pages_crawled := 1,
             pages_skipped := 0, errors := [] } :=
  have h := batch_isolation siteScrapeAB ["https://a.test", "https://b.test"] 0 "boom"
    (by decide) (by rfl)
  ⟨h.1.trans rfl, h.2.1, (h.2.2 1 (by decide)).trans (by rfl)⟩

/-- Claim C10: `scrape_multiple` returns one result per input URL, in input
order, and — since `scrape_decision_makers` always stamps its own root URL
into the result — each result's `url` equals the corresponding input URL. -/
theorem batch_results_aligned (s : String → Except String ScrapeResult)
    (urls : List String) (hurl : ∀ u result, s u = .ok result → result.url = u) :
    (scrape_multiple s urls).length = urls.length ∧
    (∀ i : Nat, ((scrape_multiple s urls)[i]?).map ScrapeResult.url = urls[i]?) ∧
    (∀ (C : Collab) (u : String) (mp : Nat), (scrape_decision_makers C u mp).url = u) := by
  rw [scrape_multiple_eq_map]
  refine ⟨by simp, fun i => ?_, fun C u mp => rfl⟩
  rw [List.getElem?_map]
  cases h : urls[i]? with
  | none => rfl
  | some u =>
    simp only [Option.map_some']
    cases hs : s u with
    | ok result => simp [hs, hurl u result hs]
    | error e => simp [hs, errorOnlyResult]

/-- A per-site scrape that succeeds everywhere and stamps the root URL. -/
def okSiteScrape : String → Except String ScrapeResult := fun u => .ok { url := u }

/-- Witness for `batch_results_aligned` on a concrete two-site batch. -/
theorem batch_results_aligned_witness :
    (scrape_multiple okSiteScrape ["https://a.test", "https://b.test"]).length = 2 ∧
    ((scrape_multiple okSiteScrape ["https://a.test", "https://b.test"])[0]?).map
      ScrapeResult.url = some "https://a.test" :=
  have h := batch_results_aligned okSiteScrape ["https://a.test", "https://b.test"]
    (fun u result hr => by cases hr; rfl)
  ⟨h.1.trans rfl, (h.2.1 0).trans rfl⟩

/-! ## Claim C1: the frontier page cap -/

/-- The enqueue loop never pushes `total_queued` past the cap. -/
theorem expandLoop_total_queued_le {max_pages : Nat} {st : RunState}
    (links : List String) (h : st.total_queued ≤ max_pages) :
    (expandLoop max_pages st links).total_queued ≤ max_pages := by
  induction links generalizing st with
  | nil => simpa [expandLoop] using h
  | cons l rest ih =>
    rw [expandLoop]
    by_cases hc : max_pages ≤ st.total_queued
    · rw [if_pos hc]; exact h
    · rw [if_neg hc]
      cases hnew : dedupIsNew st.seen l with
      | mk b seen' =>
        cases b with
        | true => exact ih (by simp; omega)
        | false => exact ih h

/-- `_expand_frontier` never pushes `total_queued` past the cap. -/
theorem expandFrontier_total_queued_le {C : Collab} {max_pages : Nat}
    {base_domain base_url : String} {links : List LinkDict} {st : RunState}
    (h : st.total_queued ≤ max_pages) :
    (expandFrontier C max_pages base_domain base_url links st).total_queued ≤ max_pages :=
  expandLoop_total_queued_le _ h

/-- `_process_page` never pushes `total_queued` past the cap. -/
theorem processPage_total_queued_le {C : Collab} {max_pages : Nat}
    {base_domain base_url : String} {st : RunState} {page_url : String}
    (h : st.total_queued ≤ max_pages) :
    (processPage C max_pages base_domain base_url st page_url).total_queued ≤ max_pages := by
  unfold processPage
  cases C.pageOf page_url with
  | raised msg => exact h
  | fetched a =>
    rcases hce : crawl_and_extract C.parseExtraction a with ⟨makers, new_links⟩
    simp only []
    split
    · exact expandFrontier_total_queued_le h
    · exact h

/-- A whole wave never pushes `total_queued` past the cap. -/
theorem processWave_total_queued_le {C : Collab} {max_pages : Nat}
    {base_domain base_url : String} {st : RunState}
    (h : st.total_queued ≤ max_pages) :
    (processWave C max_pages base_domain base_url st).total_queued ≤ max_pages := by
  unfold processWave
  have hall : ∀ (pages : List String) (st' : RunState), st'.total_queued ≤ max_pages →
      (pages.foldl (processPage C max_pages base_domain base_url) st').total_queued ≤
        max_pages := by
    intro pages
    induction pages with
    | nil => intro st' h'; simpa using h'
    | cons p rest ih => intro st' h'; exact ih _ (processPage_total_queued_le h')
  exact hall st.frontier _ h

/-- The wave loop never pushes `total_queued` past the cap. -/
theorem wavesLoop_total_queued_le {C : Collab} {max_pages : Nat}
    {base_domain base_url : String} (fuel : Nat) {st : RunState}
    (h : st.total_queued ≤ max_pages) :
    (wavesLoop C max_pages base_domain base_url fuel st).total_queued ≤ max_pages := by
  induction fuel generalizing st with
  | zero => simpa [wavesLoop] using h
  | succ n ih =>
    rw [wavesLoop]
    split
    · exact h
    · exact ih (processWave_total_queued_le h)

/-- Claim C1 as stated is false at `max_pages = 0`: the root URL is seeded
into the frontier unconditionally, so the run ends with `total_queued = 1`,
exceeding the cap (the CLI accepts any integer `--max-pages`). -/
theorem frontier_cap_counterexample :
    (scrapeRun trivialCollab "https://a.test" 0).total_queued = 1 ∧
      ¬ ((scrapeRun trivialCollab "https://a.test" 0).total_queued ≤ 0) := by
  refine ⟨by decide, by decide⟩

/-- Amended claim C1: for every collaborator, root URL and `max_pages ≥ 1`,
the run ends with `total_queued ≤ max_pages`; and the cap is checked at
every enqueue attempt — once `total_queued` has reached `max_pages`, an
enqueue pass admits nothing and leaves the state untouched. -/
theorem frontier_cap_amended (C : Collab) (url : String) {max_pages : Nat}
    (hpos : 1 ≤ max_pages) :
    (scrapeRun C url max_pages).total_queued ≤ max_pages ∧
    ∀ (st : RunState) (links : List String),
      max_pages ≤ st.total_queued → expandLoop max_pages st links = st := by
  constructor
  · unfold scrapeRun
    rcases hfl : crawl_for_links (C.linksOf url) with ⟨internal_links, success⟩
    cases success with
    | true =>
      simp only []
      exact wavesLoop_total_queued_le _ (expandFrontier_total_queued_le hpos)
    | false =>
      simp only []
      exact wavesLoop_total_queued_le _ hpos
  · intro st links hge
    cases links with
    | nil => rfl
    | cons l rest => rw [expandLoop, if_pos hge]

/-- Witness for `frontier_cap_amended` at `max_pages = 1`. -/
theorem frontier_cap_amended_witness :
    (1 ≤ 1) ∧ (scrapeRun trivialCollab "https://a.test" 1).total_queued ≤ 1 :=
  ⟨le_refl 1, (frontier_cap_amended trivialCollab "https://a.test" (le_refl 1)).1⟩

/-! ## Claim C7: link filtering safety and output ordering -/

/-- Any candidate the filter loop emits carries its own score, is
non-skip-scored, and is on-domain. -/
theorem linkCandidate_sound {urljoin : String → String → String}
    {base_domain base_url : String} {link : LinkDict} {c : Int × String}
    (h : linkCandidate urljoin base_domain base_url link = some c) :
    c.1 = score_url c.2 ∧ 0 ≤ score_url c.2 ∧
      pyInStr base_domain.data ((pyUrlparse c.2.data).netloc.map pyLower) = true := by
  unfold linkCandidate at h
  split at h
  · exact absurd h (by simp)
  · split at h
    · split at h
      · rename_i hdom hscore
        cases h
        exact ⟨rfl, hscore, hdom⟩
      · exact absurd h (by simp)
    · exact absurd h (by simp)

/-- `Char.toNat` determines the character. -/
theorem char_toNat_injective : Function.Injective Char.toNat :=
  StrictMono.injective fun _ _ h => h

/-- Python string `<` is asymmetric. -/
theorem pyStrLt_asymm : ∀ (a b : List Char),
    pyStrLt a b = true → pyStrLt b a = true → False
  | [], [], h1, _ => by simp [pyStrLt] at h1
  | [], _ :: _, _, h2 => by simp [pyStrLt] at h2
  | _ :: _, [], h1, _ => by simp [pyStrLt] at h1
  | a :: as, b :: bs, h1, h2 => by
    simp only [pyStrLt] at h1 h2
    by_cases hab : a.toNat < b.toNat
    · rw [if_neg (by omega), if_pos hab] at h2
      exact absurd h2 (by simp)
    · by_cases hba : b.toNat < a.toNat
      · rw [if_neg hab, if_pos hba] at h1
        exact absurd h1 (by simp)
      · rw [if_neg hab, if_neg hba] at h1
        rw [if_neg hba, if_neg hab] at h2
        exact pyStrLt_asymm as bs h1 h2

/-- Python string `<` is transitive. -/
theorem pyStrLt_trans : ∀ (a b c : List Char),
    pyStrLt a b = true → pyStrLt b c = true → pyStrLt a c = true
  | [], [], _, h1, _ => by simp [pyStrLt] at h1
  | [], _ :: _, [], _, h2 => by simp [pyStrLt] at h2
  | [], _ :: _, _ :: _, _, _ => by simp [pyStrLt]
  | _ :: _, [], _, h1, _ => by simp [pyStrLt] at h1
  | _ :: _, _ :: _, [], _, h2 => by simp [pyStrLt] at h2
  | a :: as, b :: bs, c :: cs, h1, h2 => by
    simp only [pyStrLt] at h1 h2 ⊢
    by_cases hab : a.toNat < b.toNat
    · by_cases hbc : b.toNat < c.toNat
      · rw [if_pos (by omega)]
      · rw [if_neg hbc] at h2
        by_cases hcb : c.toNat < b.toNat
        · rw [if_pos hcb] at h2
          exact absurd h2 (by simp)
        · rw [if_pos (by omega)]
    · rw [if_neg hab] at h1
      by_cases hba : b.toNat < a.toNat
      · rw [if_pos hba] at h1
        exact absurd h1 (by simp)
      · rw [if_neg hba] at h1
        by_cases hbc : b.toNat < c.toNat
        · rw [if_pos (by omega)]
        · rw [if_neg hbc] at h2
          by_cases hcb : c.toNat < b.toNat
          · rw [if_pos hcb] at h2
            exact absurd h2 (by simp)
          · rw [if_neg hcb] at h2
            rw [if_neg (by omega), if_neg (by omega)]
            exact pyStrLt_trans as bs cs h1 h2

/-- Two strings neither of which is below the other are equal. -/
theorem pyStrLt_connex : ∀ (a b : List Char),
    pyStrLt a b = false → pyStrLt b a = false → a = b
  | [], [], _, _ => rfl
  | [], _ :: _, h1, _ => by simp [pyStrLt] at h1
  | _ :: _, [], _, h2 => by simp [pyStrLt] at h2
  | a :: as, b :: bs, h1, h2 => by
    simp only [pyStrLt] at h1 h2
    by_cases hab : a.toNat < b.toNat
    · rw [if_pos hab] at h1
      exact absurd h1 (by simp)
    · by_cases hba : b.toNat < a.toNat
      · rw [if_pos hba] at h2
        exact absurd h2 (by simp)
      · rw [if_neg hab, if_neg hba] at h1
        rw [if_neg hba, if_neg hab] at h2
        have hc : a = b := char_toNat_injective (by omega)
        rw [hc, pyStrLt_connex as bs h1 h2]

/-- The sort comparison is total. -/
instance candLe.instIsTotal : IsTotal (Int × String) candLe := by
  constructor
  intro a b
  simp only [candLe, Bool.or_eq_true, Bool.and_eq_true, decide_eq_true_iff, pyStrLe,
    Bool.not_eq_true', Bool.not_eq_true]
  rcases lt_trichotomy a.1 b.1 with h | h | h
  · exact Or.inr (Or.inl h)
  · by_cases hs : pyStrLt b.2.data a.2.data
    · refine Or.inr (Or.inr ⟨h.symm, ?_⟩)
      cases hab : pyStrLt a.2.data b.2.data
      · rfl
      · exact absurd (pyStrLt_asymm _ _ hab hs) not_false
    · exact Or.inl (Or.inr ⟨h, by simpa using hs⟩)
  · exact Or.inl (Or.inl h)

/-- The sort comparison is transitive. -/
instance candLe.instIsTrans : IsTrans (Int × String) candLe := by
  constructor
  intro a b c hab hbc
  simp only [candLe, Bool.or_eq_true, Bool.and_eq_true, decide_eq_true_iff, pyStrLe,
    Bool.not_eq_true', Bool.not_eq_true] at hab hbc ⊢
  rcases hab with h1 | ⟨h1, h1'⟩ <;> rcases hbc with h2 | ⟨h2, h2'⟩
  · exact Or.inl (by omega)
  · exact Or.inl (by omega)
  · exact Or.inl (by omega)
  · refine Or.inr ⟨by omega, ?_⟩
    cases hca : pyStrLt c.2.data a.2.data with
    | false => rfl
    | true =>
      cases hbc2 : pyStrLt b.2.data c.2.data with
      | true =>
        have hba : pyStrLt b.2.data a.2.data = true := pyStrLt_trans _ _ _ hbc2 hca
        exact absurd hba (by simp [h1'])
      | false =>
        have hbe : b.2.data = c.2.data := pyStrLt_connex _ _ hbc2 h2'
        rw [← hbe] at hca
        exact absurd hca (by simp [h1'])

/-- Claim C7: no URL in the output of `filter_internal_links` is skip-scored
(`-1`) or off-domain, and the output is ordered by descending score with
ties broken by lexicographic (code-point) URL order. The function is pure,
so identical inputs give identical output by construction. -/
theorem link_filter_order_and_safety (urljoin : String → String → String)
    (links : List LinkDict) (base_domain base_url : String) :
    (∀ u ∈ filter_internal_links urljoin links base_domain base_url,
        score_url u ≠ -1 ∧ 0 ≤ score_url u ∧
        pyInStr base_domain.data ((pyUrlparse u.data).netloc.map pyLower) = true) ∧
    List.Pairwise
      (fun a b => score_url b < score_url a ∨
        (score_url a = score_url b ∧ pyStrLe a.data b.data = true))
      (filter_internal_links urljoin links base_domain base_url) := by
  unfold filter_internal_links
  constructor
  · intro u hu
    rcases List.mem_map.1 hu with ⟨c, hc, rfl⟩
    rw [List.mem_insertionSort] at hc
    rcases List.mem_filterMap.1 hc with ⟨link, _, hlink⟩
    rcases linkCandidate_sound hlink with ⟨_, hscore, hdom⟩
    exact ⟨by omega, hscore, hdom⟩
  · rw [List.pairwise_map]
    have hsorted :=
      List.sorted_insertionSort candLe
        (links.filterMap (linkCandidate urljoin base_domain base_url))
    refine hsorted.imp_of_mem ?_
    intro a b ha hb hle
    rw [List.mem_insertionSort] at ha hb
    rcases List.mem_filterMap.1 ha with ⟨la, _, hla⟩
    rcases List.mem_filterMap.1 hb with ⟨lb, _, hlb⟩
    have ha1 := (linkCandidate_sound hla).1
    have hb1 := (linkCandidate_sound hlb).1
    simp only [candLe, Bool.or_eq_true, Bool.and_eq_true, decide_eq_true_iff] at hle
    rcases hle with h | ⟨h, h'⟩
    · exact Or.inl (by rw [← ha1, ← hb1]; exact h)
    · exact Or.inr ⟨by rw [← ha1, ← hb1]; exact h, h'⟩

/-- Witness for `link_filter_order_and_safety`: a mixed link set containing
a skip link, an off-domain link and an empty href. -/
theorem link_filter_order_and_safety_witness :
    ("https://e.com/about-us" ∈
      filter_internal_links (fun _ href => href)
        [⟨some "https://e.com/about-us"⟩, ⟨some "https://e.com/blog/p"⟩,
         ⟨some "https://other.org/x"⟩, ⟨none⟩] "e.com" "https://e.com") ∧
    score_url "https://e.com/about-us" ≠ -1 :=
  ⟨by decide,
   ((link_filter_order_and_safety (fun _ href => href)
      [⟨some "https://e.com/about-us"⟩, ⟨some "https://e.com/blog/p"⟩,
       ⟨some "https://other.org/x"⟩, ⟨none⟩] "e.com" "https://e.com").1
      "https://e.com/about-us" (by decide)).1⟩

/-! ## Claims C5 and C6: URL normalization

The development below characterizes one round of `normalize_url` well enough
to re-parse its output. Character-level lemmas about `Char.toLower` come
first, then boundary lemmas for the splitting primitives, then the
round-trip theorem. -/

/-- `Char.ofNat` inverts `Char.toNat` below the surrogate range. -/
theorem char_toNat_ofNat {m : Nat} (h : m < 0xd800) : (Char.ofNat m).toNat = m := by
  unfold Char.ofNat
  rw [dif_pos (Or.inl h)]
  rfl

/-- `pyLower` only moves code points 65-90 (to 97-122). -/
theorem pyLower_toNat (c : Char) :
    (65 ≤ c.toNat ∧ c.toNat ≤ 90 ∧ (pyLower c).toNat = c.toNat + 32) ∨
    (¬ (65 ≤ c.toNat ∧ c.toNat ≤ 90) ∧ pyLower c = c) := by
  unfold pyLower Char.toLower
  by_cases h : c.toNat ≥ 65 ∧ c.toNat ≤ 90
  · rw [if_pos h]
    exact Or.inl ⟨h.1, h.2, char_toNat_ofNat (by omega)⟩
  · rw [if_neg h]
    exact Or.inr ⟨h, rfl⟩

/-- For a target below code point 65, `pyLower` hits it only at itself. -/
theorem pyLower_eq_low {t c : Char} (ht : t.toNat < 65) (h : pyLower c = t) : c = t := by
  rcases pyLower_toNat c with ⟨_, _, h3⟩ | ⟨_, h2⟩
  · rw [h] at h3
    omega
  · rw [← h2, h]

/-- ASCII alphabetic characters are exactly code points 65-90 and 97-122. -/
theorem char_isAlpha_iff (c : Char) :
    c.isAlpha = true ↔ ((65 ≤ c.toNat ∧ c.toNat ≤ 90) ∨ (97 ≤ c.toNat ∧ c.toNat ≤ 122)) := by
  unfold Char.isAlpha Char.isUpper Char.isLower Char.toNat
  simp only [Bool.or_eq_true, Bool.and_eq_true, decide_eq_true_iff]
  constructor
  · rintro (⟨h1, h2⟩ | ⟨h1, h2⟩)
    · exact Or.inl ⟨h1, h2⟩
    · exact Or.inr ⟨h1, h2⟩
  · rintro (⟨h1, h2⟩ | ⟨h1, h2⟩)
    · exact Or.inl ⟨h1, h2⟩
    · exact Or.inr ⟨h1, h2⟩

/-- ASCII digits are exactly code points 48-57. -/
theorem char_isDigit_iff (c : Char) :
    c.isDigit = true ↔ (48 ≤ c.toNat ∧ c.toNat ≤ 57) := by
  unfold Char.isDigit Char.toNat
  simp only [Bool.and_eq_true, decide_eq_true_iff]
  constructor
  · rintro ⟨h1, h2⟩; exact ⟨h1, h2⟩
  · rintro ⟨h1, h2⟩; exact ⟨h1, h2⟩

/-- `pyLower` is idempotent. -/
theorem pyLower_idem (c : Char) : pyLower (pyLower c) = pyLower c := by
  rcases pyLower_toNat c with ⟨h1, h2, h3⟩ | ⟨_, h2⟩
  · rcases pyLower_toNat (pyLower c) with ⟨h1', h2', _⟩ | ⟨_, h2'⟩
    · omega
    · exact h2'
  · rw [h2]
    exact h2

theorem map_pyLower_idem (l : List Char) : (l.map pyLower).map pyLower = l.map pyLower := by
  rw [List.map_map]
  exact List.map_congr_left fun c _ => pyLower_idem c

/-- `pyLower` preserves ASCII alphabeticity. -/
theorem pyLower_isAlpha {c : Char} (h : c.isAlpha = true) : (pyLower c).isAlpha = true := by
  rw [char_isAlpha_iff] at h ⊢
  rcases pyLower_toNat c with ⟨h1, h2, h3⟩ | ⟨_, h2⟩
  · omega
  · rw [h2]
    exact h

/-- `pyLower` preserves scheme characters. -/
theorem pyLower_isSchemeChar {c : Char} (h : isSchemeChar c = true) :
    isSchemeChar (pyLower c) = true := by
  unfold isSchemeChar at h ⊢
  simp only [Bool.or_eq_true, decide_eq_true_iff] at h ⊢
  simp only [or_assoc] at h ⊢
  rcases h with h | h | h | h | h
  · exact Or.inl (pyLower_isAlpha h)
  · refine Or.inr (Or.inl ?_)
    rw [char_isDigit_iff] at h
    rcases pyLower_toNat c with ⟨h1, h2, _⟩ | ⟨_, h2⟩
    · omega
    · rw [h2, char_isDigit_iff]
      exact h
  · subst h
    exact Or.inr (Or.inr (Or.inl (by decide)))
  · subst h
    exact Or.inr (Or.inr (Or.inr (Or.inl (by decide))))
  · subst h
    exact Or.inr (Or.inr (Or.inr (Or.inr (by decide))))

/-- `takeWhile`/`dropWhile` on an append whose first part satisfies the
predicate and whose second part starts with a failure. -/
theorem takeWhile_boundary {p : Char → Bool} :
    ∀ {a b : List Char}, (∀ c ∈ a, p c = true) →
      (b = [] ∨ ∃ c t, b = c :: t ∧ p c = false) →
      (a ++ b).takeWhile p = a ∧ (a ++ b).dropWhile p = b
  | [], b, _, hb => by
    rcases hb with rfl | ⟨c, t, rfl, hc⟩
    · exact ⟨rfl, rfl⟩
    · constructor
      · simp [List.takeWhile_cons, hc]
      · simp [List.dropWhile_cons, hc]
  | x :: a, b, ha, hb => by
    have hx : p x = true := ha x (by simp)
    have ih := takeWhile_boundary (a := a) (b := b) (fun c hc => ha c (by simp [hc])) hb
    simp only [List.cons_append, List.takeWhile_cons, List.dropWhile_cons, hx, if_true]
    exact ⟨by rw [ih.1], by rw [ih.2]⟩

/-- `dropWhile` is nonempty as soon as some element fails the predicate. -/
theorem dropWhile_ne_nil_of_exists {p : Char → Bool} :
    ∀ {l : List Char}, (∃ c ∈ l, p c = false) → l.dropWhile p ≠ []
  | [], h => absurd h (by simp)
  | x :: t, h => by
    rw [List.dropWhile_cons]
    split
    · rename_i hx
      rcases h with ⟨c, hc, hcf⟩
      rcases List.mem_cons.1 hc with rfl | hc
      · exact absurd hx (by simp [hcf])
      · exact dropWhile_ne_nil_of_exists ⟨c, hc, hcf⟩
    · simp

/-- `takeWhile` agrees on a list and any of its prefixes containing a
predicate failure. -/
theorem takeWhile_prefix_congr {p : Char → Bool} :
    ∀ {w u : List Char}, w <+: u → (∃ c ∈ w, p c = false) →
      u.takeWhile p = w.takeWhile p
  | [], _, _, hex => absurd hex (by simp)
  | a :: w', u, hpre, hex => by
    rcases hpre with ⟨t, rfl⟩
    rw [List.cons_append, List.takeWhile_cons, List.takeWhile_cons]
    split
    · rename_i ha
      rcases hex with ⟨c, hc, hcf⟩
      rcases List.mem_cons.1 hc with rfl | hc
      · exact absurd ha (by simp [hcf])
      · rw [takeWhile_prefix_congr ⟨t, rfl⟩ ⟨c, hc, hcf⟩]
    · rfl

/-- A nonempty prefix has the same head. -/
theorem head_of_prefix_eq {w u : List Char} (h : w <+: u) (hne : w ≠ []) :
    u.head? = w.head? := by
  rcases h with ⟨t, rfl⟩
  cases w with
  | nil => exact absurd rfl hne
  | cons a w' => rfl

/-- `splitOnFirst` is the identity split when the delimiter is absent. -/
theorem splitOnFirst_not_mem {d : Char} {l : List Char} (h : d ∉ l) :
    splitOnFirst d l = (l, []) := by
  have hb := takeWhile_boundary (p := fun c => decide (c ≠ d)) (a := l) (b := [])
    (fun c hc => by simp; rintro rfl; exact h hc) (Or.inl rfl)
  rw [List.append_nil] at hb
  unfold splitOnFirst
  rw [show (l.takeWhile (· ≠ d)) = l from hb.1, show (l.dropWhile (· ≠ d)) = [] from hb.2]
  rfl

/-- `splitOnFirst` splits at the first delimiter occurrence. -/
theorem splitOnFirst_append {d : Char} {a b : List Char} (h : d ∉ a) :
    splitOnFirst d (a ++ d :: b) = (a, b) := by
  have hb := takeWhile_boundary (p := fun c => decide (c ≠ d)) (a := a) (b := d :: b)
    (fun c hc => by simp; rintro rfl; exact h hc) (Or.inr ⟨d, b, rfl, by simp⟩)
  unfold splitOnFirst
  rw [show ((a ++ d :: b).takeWhile (· ≠ d)) = a from hb.1,
    show ((a ++ d :: b).dropWhile (· ≠ d)) = d :: b from hb.2]
  rfl

/-- Scheme characters are never `:`. -/
theorem isSchemeChar_ne_colon {c : Char} (h : isSchemeChar c = true) : c ≠ ':' := by
  rintro rfl
  exact absurd h (by decide)

/-- `splitScheme` on a well-formed `scheme:rest` input. -/
theorem splitScheme_valid {s rest : List Char} (hne : s ≠ [])
    (hhead : headIsAsciiAlpha s = true) (hall : s.all isSchemeChar = true) :
    splitScheme (s ++ ':' :: rest) = (s.map pyLower, rest) := by
  have hsne : ∀ c ∈ s, (decide (c ≠ ':')) = true := fun c hc => by
    simp only [decide_eq_true_iff]
    exact isSchemeChar_ne_colon (List.all_eq_true.mp hall c hc)
  have hb := takeWhile_boundary (p := fun c => decide (c ≠ ':')) (a := s) (b := ':' :: rest)
    hsne (Or.inr ⟨':', rest, rfl, by simp⟩)
  unfold splitScheme
  rw [show ((s ++ ':' :: rest).dropWhile (· ≠ ':')) = ':' :: rest from hb.2]
  rw [show ((s ++ ':' :: rest).takeWhile (· ≠ ':')) = s from hb.1]
  have hh2 : headIsAsciiAlpha (s ++ ':' :: rest) = true := by
    cases s with
    | nil => exact absurd rfl hne
    | cons a t => exact hhead
  show (if (!s.isEmpty && headIsAsciiAlpha (s ++ ':' :: rest) && s.all isSchemeChar) = true
      then (List.map pyLower s, rest) else ([], s ++ ':' :: rest)) =
    (List.map pyLower s, rest)
  rw [if_pos (by simp [List.isEmpty_iff, hne, hh2, hall])]

/-- `splitScheme` does nothing when the input has no colon. -/
theorem splitScheme_no_colon {l : List Char} (h : ':' ∉ l) : splitScheme l = ([], l) := by
  have hb := takeWhile_boundary (p := fun c => decide (c ≠ ':')) (a := l) (b := [])
    (fun c hc => by simp; rintro rfl; exact h hc) (Or.inl rfl)
  rw [List.append_nil] at hb
  unfold splitScheme
  rw [show (l.dropWhile (· ≠ ':')) = [] from hb.2]

/-- `splitScheme` does nothing when the first character is not an ASCII
letter. -/
theorem splitScheme_head_not_alpha {c : Char} {t : List Char} (h : c.isAlpha = false) :
    splitScheme (c :: t) = ([], c :: t) := by
  unfold splitScheme
  cases hd : (c :: t).dropWhile (· ≠ ':') with
  | nil => rfl
  | cons x rest =>
    have hh : headIsAsciiAlpha (c :: t) = false := h
    rw [hh]
    simp

/-- When `splitScheme` extracts no scheme, it leaves the input untouched. -/
theorem splitScheme_of_fst_empty {l : List Char} (h : (splitScheme l).1 = []) :
    splitScheme l = ([], l) := by
  unfold splitScheme at h ⊢
  cases hd : l.dropWhile (· ≠ ':') with
  | nil => rfl
  | cons x rest =>
    rw [hd] at h
    cases hcond : (!(l.takeWhile (· ≠ ':')).isEmpty && headIsAsciiAlpha l &&
        (l.takeWhile (· ≠ ':')).all isSchemeChar) with
    | false =>
      show (if (!(l.takeWhile (· ≠ ':')).isEmpty && headIsAsciiAlpha l &&
          (l.takeWhile (· ≠ ':')).all isSchemeChar) = true
        then (List.map pyLower (l.takeWhile (· ≠ ':')), rest) else ([], l)) = ([], l)
      rw [hcond]
      simp
    | true =>
      exfalso
      have h2 : (if (!(l.takeWhile (· ≠ ':')).isEmpty && headIsAsciiAlpha l &&
          (l.takeWhile (· ≠ ':')).all isSchemeChar) = true
        then (List.map pyLower (l.takeWhile (· ≠ ':')), rest) else ([], l)).1 = [] := h
      rw [hcond, if_pos rfl] at h2
      have hpre : (l.takeWhile (· ≠ ':')) = [] := by
        simpa using h2
      rw [hpre] at hcond
      simp at hcond

/-- When `splitScheme` fails on a list, it fails on every prefix too. -/
theorem splitScheme_prefix_fail {w u : List Char} (hpre : w <+: u)
    (hfail : (splitScheme u).1 = []) : splitScheme w = ([], w) := by
  by_cases hcol : ':' ∈ w
  · have hcolu : ':' ∈ u := hpre.subset hcol
    have hex : ∃ c ∈ w, (decide (c ≠ ':')) = false := ⟨':', hcol, by simp⟩
    have hexu : ∃ c ∈ u, (decide (c ≠ ':')) = false := ⟨':', hcolu, by simp⟩
    have htake : u.takeWhile (· ≠ ':') = w.takeWhile (· ≠ ':') :=
      takeWhile_prefix_congr hpre hex
    have hwne : w ≠ [] := by rintro rfl; simp at hcol
    have hhead : headIsAsciiAlpha u = headIsAsciiAlpha w := by
      unfold headIsAsciiAlpha
      cases hw : w with
      | nil => exact absurd hw hwne
      | cons a t =>
        have := head_of_prefix_eq hpre hwne
        rw [hw] at this
        cases hu : u with
        | nil => rw [hu] at this; simp at this
        | cons b r =>
          rw [hu] at this
          simp only [List.head?_cons, Option.some.injEq] at this
          rw [this]
    unfold splitScheme
    cases hdw : w.dropWhile (· ≠ ':') with
    | nil => rfl
    | cons x rest =>
      have hcond : (!(u.takeWhile (· ≠ ':')).isEmpty && headIsAsciiAlpha u &&
          (u.takeWhile (· ≠ ':')).all isSchemeChar) = false := by
        cases hc : (!(u.takeWhile (· ≠ ':')).isEmpty && headIsAsciiAlpha u &&
            (u.takeWhile (· ≠ ':')).all isSchemeChar) with
        | false => rfl
        | true =>
          exfalso
          unfold splitScheme at hfail
          cases hdu : u.dropWhile (· ≠ ':') with
          | nil => exact dropWhile_ne_nil_of_exists hexu hdu
          | cons y resty =>
            rw [hdu] at hfail
            have h2 : (if (!(u.takeWhile (· ≠ ':')).isEmpty && headIsAsciiAlpha u &&
                (u.takeWhile (· ≠ ':')).all isSchemeChar) = true
              then (List.map pyLower (u.takeWhile (· ≠ ':')), resty) else ([], u)).1 = [] := hfail
            rw [hc, if_pos rfl] at h2
            have hpre2 : (u.takeWhile (· ≠ ':')) = [] := by simpa using h2
            rw [hpre2] at hc
            simp at hc
      rw [htake, hhead] at hcond
      show (if (!(w.takeWhile (· ≠ ':')).isEmpty && headIsAsciiAlpha w &&
          (w.takeWhile (· ≠ ':')).all isSchemeChar) = true
        then (List.map pyLower (w.takeWhile (· ≠ ':')), rest) else ([], w)) = ([], w)
      rw [hcond]
      simp
  · exact splitScheme_no_colon hcol

/-- `splitNetloc` does nothing unless the input starts with `//`. -/
theorem splitNetloc_not_slash2 {l : List Char} (h : l.take 2 ≠ ['/', '/']) :
    splitNetloc l = ([], l) := by
  unfold splitNetloc
  split
  · rename_i rest
    exact absurd rfl h
  · rfl

/-- `splitNetloc` on `//netloc ++ rest` with a delimiter-free netloc and a
rest that is empty or starts with a delimiter. -/
theorem splitNetloc_boundary {h p : List Char} (hh : ∀ c ∈ h, isNetlocDelim c = false)
    (hp : p = [] ∨ ∃ c t, p = c :: t ∧ isNetlocDelim c = true) :
    splitNetloc ('/' :: '/' :: (h ++ p)) = (h, p) := by
  have hb := takeWhile_boundary (p := fun c => !isNetlocDelim c) (a := h) (b := p)
    (fun c hc => by simp [hh c hc])
    (by
      rcases hp with rfl | ⟨c, t, rfl, hc⟩
      · exact Or.inl rfl
      · exact Or.inr ⟨c, t, rfl, by simp [hc]⟩)
  unfold splitNetloc
  show (List.takeWhile (fun c => !isNetlocDelim c) (h ++ p),
    List.dropWhile (fun c => !isNetlocDelim c) (h ++ p)) = (h, p)
  rw [hb.1, hb.2]

/-- The unsafe URL bytes are all C0 controls. -/
theorem isC0OrSpace_of_unsafe_byte {c : Char} (h : isUnsafeUrlByte c = true) :
    isC0OrSpace c = true := by
  unfold isUnsafeUrlByte at h
  simp only [Bool.or_eq_true, decide_eq_true_iff] at h
  rcases h with (rfl | rfl) | rfl <;> decide

/-- Characters at code point 33 and above are not C0-or-space. -/
theorem isC0OrSpace_false_of_ge {c : Char} (h : 33 ≤ c.toNat) : isC0OrSpace c = false := by
  unfold isC0OrSpace
  simp only [decide_eq_false_iff_not]
  omega

/-- An ASCII letter is never C0-or-space. -/
theorem isC0OrSpace_false_of_alpha {c : Char} (h : c.isAlpha = true) :
    isC0OrSpace c = false := by
  rw [char_isAlpha_iff] at h
  exact isC0OrSpace_false_of_ge (by omega)

/-- `urlsplitClean` only shrinks the character list. -/
theorem urlsplitClean_sublist (l : List Char) : List.Sublist (urlsplitClean l) l :=
  (List.filter_sublist _).trans (List.dropWhile_sublist _)

/-- `urlsplitClean` output contains no unsafe bytes. -/
theorem urlsplitClean_no_unsafe {l : List Char} :
    ∀ c ∈ urlsplitClean l, isUnsafeUrlByte c = false := by
  intro c hc
  have := List.of_mem_filter hc
  simpa using this

/-- `urlsplitClean` output is empty or starts with a non-C0 character. -/
theorem urlsplitClean_head (l : List Char) :
    urlsplitClean l = [] ∨
      ∃ c t, urlsplitClean l = c :: t ∧ isC0OrSpace c = false := by
  unfold urlsplitClean
  have hd := List.head?_dropWhile_not isC0OrSpace l
  cases hdw : l.dropWhile isC0OrSpace with
  | nil => exact Or.inl rfl
  | cons c t =>
    rw [hdw] at hd
    simp only [List.head?_cons] at hd
    have hcnu : isUnsafeUrlByte c = false := by
      cases hu : isUnsafeUrlByte c with
      | false => rfl
      | true => rw [isC0OrSpace_of_unsafe_byte hu] at hd; exact absurd hd (by simp)
    refine Or.inr ⟨c, t.filter (fun c => !isUnsafeUrlByte c), ?_, hd⟩
    rw [List.filter_cons]
    simp [hcnu]

/-- `urlsplitClean` fixes lists without unsafe bytes that do not start with
a C0 character. -/
theorem urlsplitClean_eq_self {l : List Char}
    (hsafe : ∀ c ∈ l, isUnsafeUrlByte c = false)
    (hhead : l = [] ∨ ∃ c t, l = c :: t ∧ isC0OrSpace c = false) :
    urlsplitClean l = l := by
  unfold urlsplitClean
  have hdw : l.dropWhile isC0OrSpace = l := by
    rcases hhead with rfl | ⟨c, t, rfl, hc⟩
    · rfl
    · rw [List.dropWhile_cons, hc]
      simp
  rw [hdw, List.filter_eq_self.mpr (fun c hc => by simp [hsafe c hc])]

/-- `pyRstrip` yields a prefix. -/
theorem pyRstrip_prefix (c : Char) (l : List Char) : pyRstrip c l <+: l := by
  unfold pyRstrip
  have h := List.dropWhile_suffix (l := l.reverse) (· = c)
  have := List.reverse_prefix.mpr h
  simpa using this

/-- `pyRstrip` output is empty or does not end in the stripped character. -/
theorem pyRstrip_getLast (c : Char) (l : List Char) :
    pyRstrip c l = [] ∨ (pyRstrip c l).getLast? ≠ some c := by
  unfold pyRstrip
  have hd := List.head?_dropWhile_not (fun x => x = c) l.reverse
  cases hdw : l.reverse.dropWhile (· = c) with
  | nil => exact Or.inl rfl
  | cons x t =>
    rw [hdw] at hd
    simp only [List.head?_cons] at hd
    refine Or.inr ?_
    rw [List.getLast?_reverse]
    simp only [List.head?_cons]
    intro he
    rw [show x = c from by injection he] at hd
    simp at hd

/-- `pyRstrip` fixes lists that do not end in the stripped character. -/
theorem pyRstrip_eq_self {c : Char} {l : List Char} (h : l.getLast? ≠ some c) :
    pyRstrip c l = l := by
  unfold pyRstrip
  cases hrev : l.reverse with
  | nil => simp [List.reverse_eq_nil_iff.mp hrev]
  | cons x t =>
    have hx : x ≠ c := by
      intro he
      apply h
      rw [← List.head?_reverse, hrev, he]
      rfl
    rw [List.dropWhile_cons, if_neg (by simp [hx])]
    rw [← hrev]
    simp

/-- Unfolding equation for `normSlashPath`. -/
theorem normSlashPath_def (p : List Char) :
    normSlashPath p =
      if (pyRstrip '/' p).isEmpty = true then ['/'] else pyRstrip '/' p := rfl

/-- `normSlashPath` output is never empty. -/
theorem normSlashPath_ne_nil (p : List Char) : normSlashPath p ≠ [] := by
  rw [normSlashPath_def]
  split
  · simp
  · rename_i h
    simpa [List.isEmpty_iff] using h

/-- `normSlashPath` output shape: the root, or a nonempty prefix of the
input not ending in a slash. -/
theorem normSlashPath_shape (p : List Char) :
    normSlashPath p = ['/'] ∨
      (normSlashPath p = pyRstrip '/' p ∧ (normSlashPath p).getLast? ≠ some '/' ∧
        normSlashPath p <+: p ∧ normSlashPath p ≠ []) := by
  rw [normSlashPath_def]
  split
  · exact Or.inl rfl
  · rename_i h
    have hne : pyRstrip '/' p ≠ [] := by simpa [List.isEmpty_iff] using h
    rcases pyRstrip_getLast '/' p with h2 | h2
    · exact absurd h2 hne
    · exact Or.inr ⟨rfl, h2, pyRstrip_prefix '/' p, hne⟩

/-- `normSlashPath` is idempotent. -/
theorem normSlashPath_stable (p : List Char) :
    normSlashPath (normSlashPath p) = normSlashPath p := by
  rcases normSlashPath_shape p with h | ⟨_, h2, _, hne⟩
  · rw [h]
    decide
  · rw [normSlashPath_def (normSlashPath p), pyRstrip_eq_self h2]
    simp [List.isEmpty_iff, hne]

/-- Characters of `normSlashPath p` come from `p` or are the root slash. -/
theorem normSlashPath_mem {p : List Char} {c : Char} (h : c ∈ normSlashPath p) :
    c ∈ p ∨ c = '/' := by
  rcases normSlashPath_shape p with hs | ⟨_, _, hpre, _⟩
  · rw [hs] at h
    simp only [List.mem_singleton] at h
    exact Or.inr h
  · exact Or.inl (hpre.subset h)

/-- `normSlashPath` keeps a leading slash, and produces one for an empty
or slash-headed input. -/
theorem normSlashPath_head {p : List Char} (h : p = [] ∨ p.head? = some '/') :
    (normSlashPath p).head? = some '/' := by
  rcases normSlashPath_shape p with hs | ⟨_, _, hpre, hne⟩
  · rw [hs]
    rfl
  · rcases h with rfl | h
    · rcases hpre with ⟨t, ht⟩
      simp at ht
      exact absurd ht.1 hne
    · rw [head_of_prefix_eq hpre hne] at h
      exact h

/-- Case analysis for `splitScheme`: failure (identity) or a successful
split at the first colon. -/
theorem splitScheme_cases (l : List Char) :
    splitScheme l = ([], l) ∨
      ((!(l.takeWhile (· ≠ ':')).isEmpty && headIsAsciiAlpha l &&
          (l.takeWhile (· ≠ ':')).all isSchemeChar) = true ∧
        splitScheme l =
          ((l.takeWhile (· ≠ ':')).map pyLower, (l.dropWhile (· ≠ ':')).drop 1)) := by
  unfold splitScheme
  cases hd : l.dropWhile (· ≠ ':') with
  | nil => exact Or.inl rfl
  | cons x rest =>
    rcases Bool.eq_false_or_eq_true (!(l.takeWhile (· ≠ ':')).isEmpty &&
        headIsAsciiAlpha l && (l.takeWhile (· ≠ ':')).all isSchemeChar) with hcond | hcond
    · refine Or.inr ⟨hcond, ?_⟩
      show (if (!(l.takeWhile (· ≠ ':')).isEmpty && headIsAsciiAlpha l &&
          (l.takeWhile (· ≠ ':')).all isSchemeChar) = true
        then ((l.takeWhile (· ≠ ':')).map pyLower, rest) else ([], l)) =
        ((l.takeWhile (· ≠ ':')).map pyLower, rest)
      rw [hcond]
      exact if_pos rfl
    · refine Or.inl ?_
      show (if (!(l.takeWhile (· ≠ ':')).isEmpty && headIsAsciiAlpha l &&
          (l.takeWhile (· ≠ ':')).all isSchemeChar) = true
        then ((l.takeWhile (· ≠ ':')).map pyLower, rest) else ([], l)) = ([], l)
      rw [hcond]
      exact if_neg (by simp)

/-- The rest returned by `splitScheme` only shrinks the input. -/
theorem splitScheme_snd_sublist (l : List Char) : List.Sublist (splitScheme l).2 l := by
  rcases splitScheme_cases l with h | ⟨_, h⟩
  · rw [h]
  · rw [h]
    exact (List.drop_sublist 1 _).trans (List.dropWhile_sublist _)

/-- The rest returned by `splitNetloc` only shrinks the input. -/
theorem splitNetloc_snd_sublist (l : List Char) : List.Sublist (splitNetloc l).2 l := by
  unfold splitNetloc
  split
  · rename_i rest
    refine (List.dropWhile_sublist _).trans ?_
    exact (List.sublist_cons_self _ _).trans (List.sublist_cons_self _ _)
  · exact List.Sublist.refl l

/-- Shapes of `splitNetloc`: either untouched, or the rest is empty or
starts with a delimiter. -/
theorem splitNetloc_shape (l : List Char) :
    splitNetloc l = ([], l) ∨
      ((splitNetloc l).2 = [] ∨
        ∃ c t, (splitNetloc l).2 = c :: t ∧ isNetlocDelim c = true) := by
  unfold splitNetloc
  split
  · rename_i rest
    refine Or.inr ?_
    have hd := List.head?_dropWhile_not (fun c => !isNetlocDelim c) rest
    cases hdw : rest.dropWhile (fun c => !isNetlocDelim c) with
    | nil => exact Or.inl rfl
    | cons c t =>
      rw [hdw] at hd
      simp only [List.head?_cons] at hd
      exact Or.inr ⟨c, t, rfl, by simpa using hd⟩
  · exact Or.inl rfl

/-- The netloc returned by `splitNetloc` is delimiter-free. -/
theorem splitNetloc_fst_no_delim (l : List Char) :
    ∀ c ∈ (splitNetloc l).1, isNetlocDelim c = false := by
  unfold splitNetloc
  split
  · rename_i rest
    intro c hc
    simpa using List.mem_takeWhile_imp hc
  · intro c hc
    simp at hc

/-- `pyLower` never changes netloc-delimiter status. -/
theorem pyLower_netlocDelim (c : Char) : isNetlocDelim (pyLower c) = isNetlocDelim c := by
  rcases pyLower_toNat c with ⟨h1, h2, h3⟩ | ⟨_, h2⟩
  · have hlo : isNetlocDelim (pyLower c) = false := by
      unfold isNetlocDelim
      have : (pyLower c) ≠ '/' ∧ (pyLower c) ≠ '?' ∧ (pyLower c) ≠ '#' := by
        refine ⟨?_, ?_, ?_⟩ <;> (intro he; rw [he] at h3; simp at h3; try omega)
      simp [this.1, this.2.1, this.2.2]
    have hhi : isNetlocDelim c = false := by
      unfold isNetlocDelim
      have : c ≠ '/' ∧ c ≠ '?' ∧ c ≠ '#' := by
        refine ⟨?_, ?_, ?_⟩ <;> (intro he; rw [he] at h1; simp at h1)
      simp [this.1, this.2.1, this.2.2]
    rw [hlo, hhi]
  · rw [h2]

/-- `pyLower` never creates unsafe bytes. -/
theorem pyLower_unsafe_byte (c : Char) : isUnsafeUrlByte (pyLower c) = isUnsafeUrlByte c := by
  rcases pyLower_toNat c with ⟨h1, h2, h3⟩ | ⟨_, h2⟩
  · have hlo : isUnsafeUrlByte (pyLower c) = false := by
      unfold isUnsafeUrlByte
      have : (pyLower c) ≠ '\t' ∧ (pyLower c) ≠ '\u000d' ∧ (pyLower c) ≠ '\n' := by
        refine ⟨?_, ?_, ?_⟩ <;> (intro he; rw [he] at h3; simp at h3; try omega)
      simp [this.1, this.2.1, this.2.2]
    have hhi : isUnsafeUrlByte c = false := by
      unfold isUnsafeUrlByte
      have : c ≠ '\t' ∧ c ≠ '\u000d' ∧ c ≠ '\n' := by
        refine ⟨?_, ?_, ?_⟩ <;> (intro he; rw [he] at h1; simp at h1)
      simp [this.1, this.2.1, this.2.2]
    rw [hlo, hhi]
  · rw [h2]

/-- The scheme returned by `splitScheme` is empty or a valid, already
lowercased scheme. -/
theorem splitScheme_fst_sound (l : List Char) :
    (splitScheme l).1 = [] ∨
      (headIsAsciiAlpha (splitScheme l).1 = true ∧
        (splitScheme l).1.all isSchemeChar = true ∧
        ((splitScheme l).1).map pyLower = (splitScheme l).1) := by
  rcases splitScheme_cases l with h | ⟨hcond, h⟩
  · rw [h]
    exact Or.inl rfl
  · rw [h]
    refine Or.inr ?_
    simp only [Bool.and_eq_true, Bool.not_eq_true'] at hcond
    obtain ⟨⟨hpre, hheadl⟩, hall⟩ := hcond
    have hprene : l.takeWhile (· ≠ ':') ≠ [] := by
      simpa [List.isEmpty_iff] using hpre
    have hheadpre : headIsAsciiAlpha (l.takeWhile (· ≠ ':')) = true := by
      unfold headIsAsciiAlpha at hheadl ⊢
      cases hp : l.takeWhile (· ≠ ':') with
      | nil => exact absurd hp hprene
      | cons a t =>
        have hh := head_of_prefix_eq (List.takeWhile_prefix (l := l) (p := (· ≠ ':'))) hprene
        rw [hp] at hh
        cases hl : l with
        | nil => rw [hl] at hh; simp at hh
        | cons b r =>
          rw [hl] at hh
          simp only [List.head?_cons, Option.some.injEq] at hh
          rw [hl] at hheadl
          rw [hh] at hheadl
          exact hheadl
    refine ⟨?_, ?_, map_pyLower_idem _⟩
    · unfold headIsAsciiAlpha
      cases hp : l.takeWhile (· ≠ ':') with
      | nil => exact absurd hp hprene
      | cons a t =>
        rw [hp] at hheadpre
        simp only [List.map_cons]
        exact pyLower_isAlpha hheadpre
    · rw [List.all_map]
      rw [List.all_eq_true] at hall ⊢
      intro c hc
      exact pyLower_isSchemeChar (hall c hc)

/-- When the post-netloc rest is empty or delimiter-headed, the parsed path
is empty or slash-headed. -/
theorem path0_head_of_delim {r2 : List Char}
    (h : r2 = [] ∨ ∃ c t, r2 = c :: t ∧ isNetlocDelim c = true) :
    ((r2.takeWhile (· ≠ '#')).takeWhile (· ≠ '?')) = [] ∨
      ((r2.takeWhile (· ≠ '#')).takeWhile (· ≠ '?')).head? = some '/' := by
  rcases h with rfl | ⟨c, t, rfl, hc⟩
  · exact Or.inl rfl
  · unfold isNetlocDelim at hc
    simp only [Bool.or_eq_true, decide_eq_true_iff] at hc
    rcases hc with (rfl | rfl) | rfl
    · refine Or.inr ?_
      rw [List.takeWhile_cons, if_pos (by decide), List.takeWhile_cons, if_pos (by decide)]
      rfl
    · refine Or.inl ?_
      rw [List.takeWhile_cons, if_pos (by decide), List.takeWhile_cons, if_neg (by decide)]
    · refine Or.inl ?_
      rw [List.takeWhile_cons, if_neg (by decide)]
      rfl

/-- Elements of the parsed path lie in the post-netloc rest and avoid `#`
and `?`. -/
theorem path0_mem {r2 : List Char} {c : Char}
    (h : c ∈ (r2.takeWhile (· ≠ '#')).takeWhile (· ≠ '?')) :
    c ∈ r2 ∧ c ≠ '#' ∧ c ≠ '?' := by
  have h2 : c ∈ r2.takeWhile (· ≠ '#') := (List.takeWhile_sublist _).subset h
  refine ⟨(List.takeWhile_sublist _).subset h2, ?_, ?_⟩
  · simpa using List.mem_takeWhile_imp h2
  · simpa using List.mem_takeWhile_imp h

/-- `pyUrlparse` under a semicolon-free input: explicit component equations
(the params guard cannot fire). -/
theorem pyUrlparse_no_semi {url : List Char} (hsemi : ';' ∉ url) :
    pyUrlparse url =
      ⟨(splitScheme (urlsplitClean url)).1,
       (splitNetloc (splitScheme (urlsplitClean url)).2).1,
       (((splitNetloc (splitScheme (urlsplitClean url)).2).2.takeWhile
           (· ≠ '#')).takeWhile (· ≠ '?')),
       [],
       ((((splitNetloc (splitScheme (urlsplitClean url)).2).2.takeWhile
           (· ≠ '#')).dropWhile (· ≠ '?')).drop 1),
       (((splitNetloc (splitScheme (urlsplitClean url)).2).2.dropWhile
           (· ≠ '#')).drop 1)⟩ := by
  have hsemi0 : ';' ∉ urlsplitClean url := fun hc =>
    hsemi ((urlsplitClean_sublist url).subset hc)
  have hsemi2 : ';' ∉ (splitNetloc (splitScheme (urlsplitClean url)).2).2 := fun hc =>
    hsemi0 ((splitScheme_snd_sublist _).subset
      ((splitNetloc_snd_sublist _).subset hc))
  have hsemi3 : ';' ∉ (((splitNetloc (splitScheme (urlsplitClean url)).2).2.takeWhile
      (· ≠ '#')).takeWhile (· ≠ '?')) := fun hc => hsemi2 (path0_mem hc).1
  have hguard : ((((splitNetloc (splitScheme (urlsplitClean url)).2).2.takeWhile
      (· ≠ '#')).takeWhile (· ≠ '?')).contains ';') = false := by
    simpa using hsemi3
  unfold pyUrlparse
  show (⟨(splitScheme (urlsplitClean url)).1,
      (splitNetloc (splitScheme (urlsplitClean url)).2).1,
      (if schemeUsesParams (splitScheme (urlsplitClean url)).1 &&
          ((((splitNetloc (splitScheme (urlsplitClean url)).2).2.takeWhile
            (· ≠ '#')).takeWhile (· ≠ '?')).contains ';')
        then splitParams (((splitNetloc (splitScheme (urlsplitClean url)).2).2.takeWhile
            (· ≠ '#')).takeWhile (· ≠ '?'))
        else ((((splitNetloc (splitScheme (urlsplitClean url)).2).2.takeWhile
            (· ≠ '#')).takeWhile (· ≠ '?')), [])).1,
      (if schemeUsesParams (splitScheme (urlsplitClean url)).1 &&
          ((((splitNetloc (splitScheme (urlsplitClean url)).2).2.takeWhile
            (· ≠ '#')).takeWhile (· ≠ '?')).contains ';')
        then splitParams (((splitNetloc (splitScheme (urlsplitClean url)).2).2.takeWhile
            (· ≠ '#')).takeWhile (· ≠ '?'))
        else ((((splitNetloc (splitScheme (urlsplitClean url)).2).2.takeWhile
            (· ≠ '#')).takeWhile (· ≠ '?')), [])).2,
      ((((splitNetloc (splitScheme (urlsplitClean url)).2).2.takeWhile
          (· ≠ '#')).dropWhile (· ≠ '?')).drop 1),
      (((splitNetloc (splitScheme (urlsplitClean url)).2).2.dropWhile
          (· ≠ '#')).drop 1)⟩ : UrlParts) = _
  rw [hguard, Bool.and_false]
  rfl

/-- `pyUrlunsplit` with empty query and fragment, in closed form. -/
theorem pyUrlunsplit_eq (S H P : List Char) :
    pyUrlunsplit S H P [] [] =
      (if !S.isEmpty then S ++ [':'] else []) ++
        (if (!H.isEmpty || (!S.isEmpty && schemeUsesNetloc S &&
            decide (P.take 2 ≠ ['/', '/']))) = true
         then ('/' :: '/' :: H) ++
           (if (!P.isEmpty && decide (P.take 1 ≠ ['/'])) = true then '/' :: P else P)
         else P) := by
  unfold pyUrlunsplit
  simp only [List.isEmpty_nil, Bool.not_true, if_neg (by simp : ¬ (false = true))]
  split
  · split
    · simp
    · simp
  · split
    · simp
    · simp

/-- `pyUrlparse` when the parsed path is semicolon-free: explicit component
equations (the params guard cannot fire). -/
theorem pyUrlparse_eq_of_path_semi_free {url : List Char}
    (hsemi3 : ';' ∉ (((splitNetloc (splitScheme (urlsplitClean url)).2).2.takeWhile
      (· ≠ '#')).takeWhile (· ≠ '?'))) :
    pyUrlparse url =
      ⟨(splitScheme (urlsplitClean url)).1,
       (splitNetloc (splitScheme (urlsplitClean url)).2).1,
       (((splitNetloc (splitScheme (urlsplitClean url)).2).2.takeWhile
           (· ≠ '#')).takeWhile (· ≠ '?')),
       [],
       ((((splitNetloc (splitScheme (urlsplitClean url)).2).2.takeWhile
           (· ≠ '#')).dropWhile (· ≠ '?')).drop 1),
       (((splitNetloc (splitScheme (urlsplitClean url)).2).2.dropWhile
           (· ≠ '#')).drop 1)⟩ := by
  have hguard : ((((splitNetloc (splitScheme (urlsplitClean url)).2).2.takeWhile
      (· ≠ '#')).takeWhile (· ≠ '?')).contains ';') = false := by
    simpa using hsemi3
  unfold pyUrlparse
  show (⟨(splitScheme (urlsplitClean url)).1,
      (splitNetloc (splitScheme (urlsplitClean url)).2).1,
      (if schemeUsesParams (splitScheme (urlsplitClean url)).1 &&
          ((((splitNetloc (splitScheme (urlsplitClean url)).2).2.takeWhile
            (· ≠ '#')).takeWhile (· ≠ '?')).contains ';')
        then splitParams (((splitNetloc (splitScheme (urlsplitClean url)).2).2.takeWhile
            (· ≠ '#')).takeWhile (· ≠ '?'))
        else ((((splitNetloc (splitScheme (urlsplitClean url)).2).2.takeWhile
            (· ≠ '#')).takeWhile (· ≠ '?')), [])).1,
      (if schemeUsesParams (splitScheme (urlsplitClean url)).1 &&
          ((((splitNetloc (splitScheme (urlsplitClean url)).2).2.takeWhile
            (· ≠ '#')).takeWhile (· ≠ '?')).contains ';')
        then splitParams (((splitNetloc (splitScheme (urlsplitClean url)).2).2.takeWhile
            (· ≠ '#')).takeWhile (· ≠ '?'))
        else ((((splitNetloc (splitScheme (urlsplitClean url)).2).2.takeWhile
            (· ≠ '#')).takeWhile (· ≠ '?')), [])).2,
      ((((splitNetloc (splitScheme (urlsplitClean url)).2).2.takeWhile
          (· ≠ '#')).dropWhile (· ≠ '?')).drop 1),
      (((splitNetloc (splitScheme (urlsplitClean url)).2).2.dropWhile
          (· ≠ '#')).drop 1)⟩ : UrlParts) = _
  rw [hguard, Bool.and_false]
  rfl

/-- `takeWhile`/`dropWhile` against an absent delimiter. -/
theorem takeWhile_of_not_mem {d : Char} {l : List Char} (h : d ∉ l) :
    l.takeWhile (· ≠ d) = l ∧ l.dropWhile (· ≠ d) = [] := by
  have hb := takeWhile_boundary (p := fun c => decide (c ≠ d)) (a := l) (b := [])
    (fun c hc => by simp; rintro rfl; exact h hc) (Or.inl rfl)
  rw [List.append_nil] at hb
  exact hb

/-- Re-parsing the optional `scheme:` prefix that `urlunsplit` adds in
front of a slash-headed body recovers exactly the scheme and the body. -/
theorem splitScheme_concat {S body : List Char}
    (hSv : S = [] ∨ (headIsAsciiAlpha S = true ∧ S.all isSchemeChar = true))
    (hSlow : S.map pyLower = S)
    (hbody : body.head? = some '/') :
    splitScheme ((if !S.isEmpty then S ++ [':'] else []) ++ body) = (S, body) := by
  obtain ⟨t, rfl⟩ : ∃ t, body = '/' :: t := by
    cases body with
    | nil => simp at hbody
    | cons c r =>
      simp only [List.head?_cons, Option.some.injEq] at hbody
      exact ⟨r, by rw [hbody]⟩
  rcases hSv with rfl | ⟨hh, ha⟩
  · rw [show (if !([] : List Char).isEmpty then ([] : List Char) ++ [':'] else []) = [] by simp]
    rw [List.nil_append]
    exact splitScheme_head_not_alpha (by decide)
  · have hne : S ≠ [] := by
      cases S with
      | nil => simp [headIsAsciiAlpha] at hh
      | cons a r => simp
    rw [show (if !S.isEmpty then S ++ [':'] else []) = S ++ [':'] by
      simp [List.isEmpty_iff, hne]]
    rw [List.append_assoc]
    rw [show ([':'] ++ ('/' :: t)) = ':' :: '/' :: t from rfl]
    rw [splitScheme_valid hne hh ha, hSlow]

/-- The head character of the `urlunsplit` output is safe to re-clean. -/
theorem clean_concat {S body : List Char}
    (hSα : S = [] ∨ headIsAsciiAlpha S = true)
    (hSafeS : ∀ c ∈ S, isUnsafeUrlByte c = false)
    (hSafeBody : ∀ c ∈ body, isUnsafeUrlByte c = false)
    (hbody : body.head? = some '/') :
    urlsplitClean ((if !S.isEmpty then S ++ [':'] else []) ++ body) =
      (if !S.isEmpty then S ++ [':'] else []) ++ body := by
  apply urlsplitClean_eq_self
  · intro c hc
    rcases List.mem_append.1 hc with h | h
    · rcases Bool.eq_false_or_eq_true S.isEmpty with hse | hse
      · rw [if_neg (by simp [hse])] at h
        simp at h
      · rw [if_pos (by simp [hse])] at h
        rcases List.mem_append.1 h with h2 | h2
        · exact hSafeS c h2
        · simp only [List.mem_singleton] at h2
          rw [h2]
          decide
    · exact hSafeBody c h
  · refine Or.inr ?_
    obtain ⟨t, rfl⟩ : ∃ t, body = '/' :: t := by
      cases body with
      | nil => simp at hbody
      | cons c r =>
        simp only [List.head?_cons, Option.some.injEq] at hbody
        exact ⟨r, by rw [hbody]⟩
    rcases hSα with rfl | hh
    · exact ⟨'/', t, by simp, by decide⟩
    · cases S with
      | nil => simp [headIsAsciiAlpha] at hh
      | cons a r =>
        refine ⟨a, r ++ ':' :: '/' :: t, ?_, isC0OrSpace_false_of_alpha hh⟩
        simp

/-- `//`-headed bodies re-parse into netloc and path. -/
theorem splitNetloc_concat {H P : List Char}
    (hH : ∀ c ∈ H, isNetlocDelim c = false)
    (hP : P.head? = some '/') :
    splitNetloc ('/' :: '/' :: (H ++ P)) = (H, P) := by
  obtain ⟨t, rfl⟩ : ∃ t, P = '/' :: t := by
    cases P with
    | nil => simp at hP
    | cons c r =>
      simp only [List.head?_cons, Option.some.injEq] at hP
      exact ⟨r, by rw [hP]⟩
  exact splitNetloc_boundary hH (Or.inr ⟨'/', t, rfl, by decide⟩)


/-- Assemble `pyUrlparse` from computed splits when the path part has no
hash, query or semicolon characters. -/
theorem pyUrlparse_of_splits {N S' B H' P2 : List Char}
    (hclean : urlsplitClean N = N)
    (hsch : splitScheme N = (S', B))
    (hnet : splitNetloc B = (H', P2))
    (hhash : '#' ∉ P2) (hq : '?' ∉ P2) (hsemi : ';' ∉ P2) :
    pyUrlparse N = ⟨S', H', P2, [], [], []⟩ := by
  have h1 := (takeWhile_of_not_mem hhash).1
  have h2 := (takeWhile_of_not_mem hhash).2
  have h3 := (takeWhile_of_not_mem hq).1
  have h4 := (takeWhile_of_not_mem hq).2
  have hfree : ';' ∉ (((splitNetloc (splitScheme (urlsplitClean N)).2).2.takeWhile
      (· ≠ '#')).takeWhile (· ≠ '?')) := by
    rw [hclean, hsch]
    show ';' ∉ ((splitNetloc B).2.takeWhile (· ≠ '#')).takeWhile (· ≠ '?')
    rw [hnet]
    show ';' ∉ (P2.takeWhile (· ≠ '#')).takeWhile (· ≠ '?')
    rw [h1, h3]
    exact hsemi
  have h5 := pyUrlparse_eq_of_path_semi_free hfree
  rw [hclean, hsch] at h5
  simp only [] at h5
  rw [hnet] at h5
  simp only [] at h5
  rw [h1, h3, h4, h2] at h5
  simpa using h5

/-- Re-normalizing the output of `pyUrlunsplit` on already-normalized
components reproduces it exactly: parsing the reassembled URL recovers the
components, and lowercasing / slash-stripping them again is the identity. -/
theorem normalize_unsplit_roundtrip (S H P : List Char)
    (hSv : S = [] ∨ (headIsAsciiAlpha S = true ∧ S.all isSchemeChar = true))
    (hSlow : S.map pyLower = S)
    (hHnd : ∀ c ∈ H, isNetlocDelim c = false)
    (hHlow : H.map pyLower = H)
    (hPstable : normSlashPath P = P)
    (hPhash : '#' ∉ P) (hPq : '?' ∉ P) (hPsemi : ';' ∉ P)
    (hSafeS : ∀ c ∈ S, isUnsafeUrlByte c = false)
    (hSafeH : ∀ c ∈ H, isUnsafeUrlByte c = false)
    (hSafeP : ∀ c ∈ P, isUnsafeUrlByte c = false)
    (hPslash : H ≠ [] → P.head? = some '/')
    (hP2 : H = [] → P.take 2 ≠ ['/', '/'])
    (hDfree : H = [] → S = [] → splitScheme P = ([], P) ∧
      (∃ c t, P = c :: t ∧ isC0OrSpace c = false)) :
    pyUrlunsplit ((pyUrlparse (pyUrlunsplit S H P [] [])).scheme.map pyLower)
      ((pyUrlparse (pyUrlunsplit S H P [] [])).netloc.map pyLower)
      (normSlashPath (pyUrlparse (pyUrlunsplit S H P [] [])).path) [] [] =
    pyUrlunsplit S H P [] [] := by
  have hPne : P ≠ [] := by
    rw [← hPstable]
    exact normSlashPath_ne_nil P
  by_cases hH : H = []
  · subst hH
    by_cases hS : S = []
    · subst hS
      obtain ⟨hfsch, hhead⟩ := hDfree rfl rfl
      have hN : pyUrlunsplit [] [] P [] [] = P := by
        rw [pyUrlunsplit_eq]
        simp
      have hclean : urlsplitClean P = P :=
        urlsplitClean_eq_self hSafeP (Or.inr hhead)
      have hnet : splitNetloc P = ([], P) := splitNetloc_not_slash2 (hP2 rfl)
      have hparse : pyUrlparse (pyUrlunsplit [] [] P [] []) =
          ⟨[], [], P, [], [], []⟩ := by
        rw [hN]
        exact pyUrlparse_of_splits hclean hfsch hnet hPhash hPq hPsemi
      rw [hparse]
      show pyUrlunsplit [] [] (normSlashPath P) [] [] = pyUrlunsplit [] [] P [] []
      rw [hPstable]
    · obtain ⟨hh, ha⟩ : headIsAsciiAlpha S = true ∧ S.all isSchemeChar = true := by
        rcases hSv with rfl | h
        · exact absurd rfl hS
        · exact h
      by_cases hUN : schemeUsesNetloc S = true
      · by_cases hp1 : P.take 1 = ['/']
        · -- slash-headed path under a netloc-using scheme
          obtain ⟨t, rfl⟩ : ∃ t, P = '/' :: t := by
            cases P with
            | nil => exact absurd rfl hPne
            | cons c r =>
              refine ⟨r, ?_⟩
              have h' : (c :: ([] : List Char)) = ['/'] := hp1
              have hc0 : c = '/' := by simpa using h'
              rw [hc0]
          have hN : pyUrlunsplit S [] ('/' :: t) [] [] =
              (if !S.isEmpty then S ++ [':'] else []) ++
                ('/' :: '/' :: ([] ++ ('/' :: t))) := by
            rw [pyUrlunsplit_eq]
            have hc1 : (!List.isEmpty ([] : List Char) ||
                (!S.isEmpty && schemeUsesNetloc S &&
                  decide (('/' :: t).take 2 ≠ ['/', '/']))) = true := by
              show (false || (!S.isEmpty && schemeUsesNetloc S &&
                decide (('/' :: t).take 2 ≠ ['/', '/']))) = true
              rw [Bool.false_or, hUN, decide_eq_true (hP2 rfl)]
              simp [List.isEmpty_iff, hS]
            rw [if_pos hc1]
            have hg : (!('/' :: t).isEmpty &&
                decide (('/' :: t).take 1 ≠ ['/'])) = false := by
              have h1 : ('/' :: t).take 1 = ['/'] := rfl
              simp [h1]
            rw [hg]
            rw [if_neg (by simp : ¬(false = true))]
            simp
          have hSα : S = [] ∨ headIsAsciiAlpha S = true := Or.inr hh
          have hSafeBody : ∀ c ∈ ('/' :: '/' :: ([] ++ ('/' :: t))),
              isUnsafeUrlByte c = false := by
            intro c hc
            rcases List.mem_cons.1 hc with rfl | hc
            · decide
            rcases List.mem_cons.1 hc with rfl | hc
            · decide
            rcases List.mem_append.1 hc with h | h
            · simp at h
            · exact hSafeP c h
          have hclean := @clean_concat S ('/' :: '/' :: ([] ++ ('/' :: t)))
            hSα hSafeS hSafeBody rfl
          have hsch := @splitScheme_concat S ('/' :: '/' :: ([] ++ ('/' :: t)))
            hSv hSlow rfl
          have hnet : splitNetloc ('/' :: '/' :: ([] ++ ('/' :: t))) =
              ([], '/' :: t) :=
            splitNetloc_concat (by simp) rfl
          have hparse : pyUrlparse (pyUrlunsplit S [] ('/' :: t) [] []) =
              ⟨S, [], '/' :: t, [], [], []⟩ := by
            rw [hN]
            exact pyUrlparse_of_splits hclean hsch hnet hPhash hPq hPsemi
          rw [hparse]
          show pyUrlunsplit (S.map pyLower) [] (normSlashPath ('/' :: t)) [] [] =
            pyUrlunsplit S [] ('/' :: t) [] []
          rw [hSlow, hPstable]
        · -- non-slash-headed path: round one prepends a slash, stably
          have ht2 : ('/' :: P).take 2 ≠ ['/', '/'] := by
            cases P with
            | nil => exact absurd rfl hPne
            | cons c r =>
              intro h
              have h' : ('/' : Char) :: c :: ([] : List Char) = ['/', '/'] := h
              have hc : c = '/' := by simpa using h'
              exact hp1 (by rw [hc]; rfl)
          have hN : pyUrlunsplit S [] P [] [] =
              (if !S.isEmpty then S ++ [':'] else []) ++
                ('/' :: '/' :: ([] ++ ('/' :: P))) := by
            rw [pyUrlunsplit_eq]
            have hc1 : (!List.isEmpty ([] : List Char) ||
                (!S.isEmpty && schemeUsesNetloc S &&
                  decide (P.take 2 ≠ ['/', '/']))) = true := by
              show (false || (!S.isEmpty && schemeUsesNetloc S &&
                decide (P.take 2 ≠ ['/', '/']))) = true
              rw [Bool.false_or, hUN, decide_eq_true (hP2 rfl)]
              simp [List.isEmpty_iff, hS]
            rw [if_pos hc1]
            have hg : (!P.isEmpty && decide (P.take 1 ≠ ['/'])) = true := by
              rw [decide_eq_true hp1]
              simp [List.isEmpty_iff, hPne]
            rw [hg]
            rw [if_pos rfl]
            simp
          have hbh : '#' ∉ ('/' :: P) := by
            intro hc
            rcases List.mem_cons.1 hc with h | h
            · exact absurd h (by decide)
            · exact hPhash h
          have hbq : '?' ∉ ('/' :: P) := by
            intro hc
            rcases List.mem_cons.1 hc with h | h
            · exact absurd h (by decide)
            · exact hPq h
          have hbs : ';' ∉ ('/' :: P) := by
            intro hc
            rcases List.mem_cons.1 hc with h | h
            · exact absurd h (by decide)
            · exact hPsemi h
          have hSα : S = [] ∨ headIsAsciiAlpha S = true := Or.inr hh
          have hSafeBody : ∀ c ∈ ('/' :: '/' :: ([] ++ ('/' :: P))),
              isUnsafeUrlByte c = false := by
            intro c hc
            rcases List.mem_cons.1 hc with rfl | hc
            · decide
            rcases List.mem_cons.1 hc with rfl | hc
            · decide
            rcases List.mem_append.1 hc with h | h
            · simp at h
            · rcases List.mem_cons.1 h with rfl | h2
              · decide
              · exact hSafeP c h2
          have hclean := @clean_concat S ('/' :: '/' :: ([] ++ ('/' :: P)))
            hSα hSafeS hSafeBody rfl
          have hsch := @splitScheme_concat S ('/' :: '/' :: ([] ++ ('/' :: P)))
            hSv hSlow rfl
          have hnet : splitNetloc ('/' :: '/' :: ([] ++ ('/' :: P))) =
              ([], '/' :: P) :=
            splitNetloc_concat (by simp) rfl
          have hparse : pyUrlparse (pyUrlunsplit S [] P [] []) =
              ⟨S, [], '/' :: P, [], [], []⟩ := by
            rw [hN]
            exact pyUrlparse_of_splits hclean hsch hnet hbh hbq hbs
          have hlast : P.getLast? ≠ some '/' := by
            rcases normSlashPath_shape P with hs | ⟨_, h2, _, _⟩
            · have hPeq : P = ['/'] := hPstable.symm.trans hs
              exact absurd (by rw [hPeq]; rfl) hp1
            · rw [hPstable] at h2
              exact h2
          have hglast : ('/' :: P).getLast? = P.getLast? := by
            cases P with
            | nil => exact absurd rfl hPne
            | cons c r => rw [List.getLast?_cons_cons]
          have hst : normSlashPath ('/' :: P) = '/' :: P := by
            rw [normSlashPath_def, pyRstrip_eq_self (by rw [hglast]; exact hlast)]
            simp
          rw [hparse]
          show pyUrlunsplit (S.map pyLower) [] (normSlashPath ('/' :: P)) [] [] =
            pyUrlunsplit S [] P [] []
          rw [hSlow, hst, hN]
          rw [pyUrlunsplit_eq]
          have hcL : (!List.isEmpty ([] : List Char) ||
              (!S.isEmpty && schemeUsesNetloc S &&
                decide (('/' :: P).take 2 ≠ ['/', '/']))) = true := by
            show (false || (!S.isEmpty && schemeUsesNetloc S &&
              decide (('/' :: P).take 2 ≠ ['/', '/']))) = true
            rw [Bool.false_or, hUN, decide_eq_true ht2]
            simp [List.isEmpty_iff, hS]
          rw [if_pos hcL]
          have hgL : (!('/' :: P).isEmpty &&
              decide (('/' :: P).take 1 ≠ ['/'])) = false := by
            have h1 : ('/' :: P).take 1 = ['/'] := rfl
            simp [h1]
          rw [hgL]
          rw [if_neg (by simp : ¬(false = true))]
          simp
      · -- scheme that does not use a netloc
        have hUN' : schemeUsesNetloc S = false := by simpa using hUN
        have hN : pyUrlunsplit S [] P [] [] = S ++ ':' :: P := by
          rw [pyUrlunsplit_eq]
          have hcond : (!List.isEmpty ([] : List Char) ||
              (!S.isEmpty && schemeUsesNetloc S &&
                decide (P.take 2 ≠ ['/', '/']))) = false := by
            show (false || (!S.isEmpty && schemeUsesNetloc S &&
              decide (P.take 2 ≠ ['/', '/']))) = false
            rw [Bool.false_or, hUN', Bool.and_false, Bool.false_and]
          rw [hcond]
          rw [if_neg (by simp : ¬(false = true))]
          rw [if_pos (show (!S.isEmpty) = true by simp [List.isEmpty_iff, hS])]
          simp
        have hclean : urlsplitClean (S ++ ':' :: P) = S ++ ':' :: P := by
          apply urlsplitClean_eq_self
          · intro c hc
            rcases List.mem_append.1 hc with h | h
            · exact hSafeS c h
            · rcases List.mem_cons.1 h with rfl | h2
              · decide
              · exact hSafeP c h2
          · refine Or.inr ?_
            cases hSc : S with
            | nil => exact absurd hSc hS
            | cons a r =>
              refine ⟨a, r ++ ':' :: P, by simp, isC0OrSpace_false_of_alpha ?_⟩
              rw [hSc] at hh
              exact hh
        have hsch : splitScheme (S ++ ':' :: P) = (S, P) := by
          rw [splitScheme_valid hS hh ha, hSlow]
        have hnet : splitNetloc P = ([], P) := splitNetloc_not_slash2 (hP2 rfl)
        have hparse : pyUrlparse (pyUrlunsplit S [] P [] []) =
            ⟨S, [], P, [], [], []⟩ := by
          rw [hN]
          exact pyUrlparse_of_splits hclean hsch hnet hPhash hPq hPsemi
        rw [hparse]
        show pyUrlunsplit (S.map pyLower) [] (normSlashPath P) [] [] =
          pyUrlunsplit S [] P [] []
        rw [hSlow, hPstable]
  · -- nonempty netloc
    obtain ⟨t, rfl⟩ : ∃ t, P = '/' :: t := by
      have hps := hPslash hH
      cases P with
      | nil => simp at hps
      | cons c r =>
        simp only [List.head?_cons, Option.some.injEq] at hps
        exact ⟨r, by rw [hps]⟩
    have hN : pyUrlunsplit S H ('/' :: t) [] [] =
        (if !S.isEmpty then S ++ [':'] else []) ++
          ('/' :: '/' :: (H ++ ('/' :: t))) := by
      rw [pyUrlunsplit_eq]
      have hc1 : (!H.isEmpty ||
          (!S.isEmpty && schemeUsesNetloc S &&
            decide (('/' :: t).take 2 ≠ ['/', '/']))) = true := by
        have hhe : (!H.isEmpty) = true := by simp [List.isEmpty_iff, hH]
        rw [hhe, Bool.true_or]
      rw [if_pos hc1]
      have hg : (!('/' :: t).isEmpty &&
          decide (('/' :: t).take 1 ≠ ['/'])) = false := by
        have h1 : ('/' :: t).take 1 = ['/'] := rfl
        simp [h1]
      rw [hg]
      rw [if_neg (by simp : ¬(false = true))]
      simp
    have hSα : S = [] ∨ headIsAsciiAlpha S = true := by
      rcases hSv with rfl | ⟨hh, _⟩
      · exact Or.inl rfl
      · exact Or.inr hh
    have hSafeBody : ∀ c ∈ ('/' :: '/' :: (H ++ ('/' :: t))),
        isUnsafeUrlByte c = false := by
      intro c hc
      rcases List.mem_cons.1 hc with rfl | hc
      · decide
      rcases List.mem_cons.1 hc with rfl | hc
      · decide
      rcases List.mem_append.1 hc with h | h
      · exact hSafeH c h
      · exact hSafeP c h
    have hclean := @clean_concat S ('/' :: '/' :: (H ++ ('/' :: t)))
      hSα hSafeS hSafeBody rfl
    have hsch := @splitScheme_concat S ('/' :: '/' :: (H ++ ('/' :: t)))
      hSv hSlow rfl
    have hnet : splitNetloc ('/' :: '/' :: (H ++ ('/' :: t))) = (H, '/' :: t) :=
      splitNetloc_concat hHnd rfl
    have hparse : pyUrlparse (pyUrlunsplit S H ('/' :: t) [] []) =
        ⟨S, H, '/' :: t, [], [], []⟩ := by
      rw [hN]
      exact pyUrlparse_of_splits hclean hsch hnet hPhash hPq hPsemi
    rw [hparse]
    show pyUrlunsplit (S.map pyLower) (H.map pyLower) (normSlashPath ('/' :: t)) [] [] =
      pyUrlunsplit S H ('/' :: t) [] []
    rw [hSlow, hHlow, hPstable]

/-- Scheme-component characters are never unsafe when the input has no
unsafe bytes. -/
theorem splitScheme_fst_unsafe {l : List Char}
    (hl : ∀ c ∈ l, isUnsafeUrlByte c = false) :
    ∀ c ∈ (splitScheme l).1, isUnsafeUrlByte c = false := by
  rcases splitScheme_cases l with h | ⟨_, h⟩
  · rw [h]
    intro c hc
    simp at hc
  · rw [h]
    intro c hc
    simp only [] at hc
    simp only [List.mem_map] at hc
    obtain ⟨a, ha, rfl⟩ := hc
    rw [pyLower_unsafe_byte]
    exact hl a ((List.takeWhile_sublist _).subset ha)

/-- Members of the netloc component come from the input list. -/
theorem splitNetloc_fst_mem (l : List Char) : ∀ c ∈ (splitNetloc l).1, c ∈ l := by
  unfold splitNetloc
  split
  · rename_i rest
    intro c hc
    have hr : c ∈ rest := (List.takeWhile_sublist _).subset hc
    exact List.mem_cons_of_mem _ (List.mem_cons_of_mem _ hr)
  · intro c hc
    simp at hc

/-- Closed form of `normalize_url`: since the rebuilt params, query and
fragment are empty, `urlunparse` reduces to `urlunsplit`. -/
theorem normalize_url_eq (u : String) :
    normalize_url u = String.mk (pyUrlunsplit
      ((pyUrlparse u.data).scheme.map pyLower)
      ((pyUrlparse u.data).netloc.map pyLower)
      (normSlashPath (pyUrlparse u.data).path) [] []) := rfl

/-- C6: URL normalization (`dedup.normalize_url`) is idempotent on inputs
with no semicolon whose first-round parse does not hit the empty-netloc
`//`-headed-path ambiguity of `urlunparse`; the counterexample theorem
shows the unconditional claim is false. -/
theorem url_normalize_idempotent_amended (u : String)
    (hsemi : ';' ∉ u.data)
    (hshape : (pyUrlparse u.data).netloc ≠ [] ∨
      (normSlashPath (pyUrlparse u.data).path).take 2 ≠ ['/', '/']) :
    normalize_url (normalize_url u) = normalize_url u := by
  have hpr := pyUrlparse_no_semi hsemi
  have hsc : (pyUrlparse u.data).scheme = (splitScheme (urlsplitClean u.data)).1 := by
    rw [hpr]
  have hnl : (pyUrlparse u.data).netloc =
      (splitNetloc (splitScheme (urlsplitClean u.data)).2).1 := by
    rw [hpr]
  have hpa : (pyUrlparse u.data).path =
      (((splitNetloc (splitScheme (urlsplitClean u.data)).2).2.takeWhile
        (· ≠ '#')).takeWhile (· ≠ '?')) := by
    rw [hpr]
  have hCsafe := urlsplitClean_no_unsafe (l := u.data)
  have hBsub : List.Sublist (splitScheme (urlsplitClean u.data)).2
      (urlsplitClean u.data) := splitScheme_snd_sublist _
  have hRsub : List.Sublist (splitNetloc (splitScheme (urlsplitClean u.data)).2).2
      (splitScheme (urlsplitClean u.data)).2 := splitNetloc_snd_sublist _
  have h1 : (pyUrlparse u.data).scheme.map pyLower = [] ∨
      (headIsAsciiAlpha ((pyUrlparse u.data).scheme.map pyLower) = true ∧
        ((pyUrlparse u.data).scheme.map pyLower).all isSchemeChar = true) := by
    rw [hsc]
    rcases splitScheme_fst_sound (urlsplitClean u.data) with h | ⟨hh, ha, hlow⟩
    · rw [h]
      exact Or.inl rfl
    · rw [hlow]
      exact Or.inr ⟨hh, ha⟩
  have h2 : ((pyUrlparse u.data).scheme.map pyLower).map pyLower =
      (pyUrlparse u.data).scheme.map pyLower := map_pyLower_idem _
  have h3 : ∀ c ∈ (pyUrlparse u.data).netloc.map pyLower,
      isNetlocDelim c = false := by
    rw [hnl]
    intro c hc
    simp only [List.mem_map] at hc
    obtain ⟨a, ha, rfl⟩ := hc
    rw [pyLower_netlocDelim]
    exact splitNetloc_fst_no_delim _ a ha
  have h4 : ((pyUrlparse u.data).netloc.map pyLower).map pyLower =
      (pyUrlparse u.data).netloc.map pyLower := map_pyLower_idem _
  have h5 : normSlashPath (normSlashPath (pyUrlparse u.data).path) =
      normSlashPath (pyUrlparse u.data).path := normSlashPath_stable _
  have h6 : '#' ∉ normSlashPath (pyUrlparse u.data).path := by
    rw [hpa]
    intro hc
    rcases normSlashPath_mem hc with h | h
    · exact (path0_mem h).2.1 rfl
    · exact absurd h (by decide)
  have h7 : '?' ∉ normSlashPath (pyUrlparse u.data).path := by
    rw [hpa]
    intro hc
    rcases normSlashPath_mem hc with h | h
    · exact (path0_mem h).2.2 rfl
    · exact absurd h (by decide)
  have h8 : ';' ∉ normSlashPath (pyUrlparse u.data).path := by
    rw [hpa]
    intro hc
    rcases normSlashPath_mem hc with h | h
    · exact hsemi ((urlsplitClean_sublist u.data).subset
        (hBsub.subset (hRsub.subset (path0_mem h).1)))
    · exact absurd h (by decide)
  have h9 : ∀ c ∈ (pyUrlparse u.data).scheme.map pyLower,
      isUnsafeUrlByte c = false := by
    rw [hsc]
    intro c hc
    simp only [List.mem_map] at hc
    obtain ⟨a, ha, rfl⟩ := hc
    rw [pyLower_unsafe_byte]
    exact splitScheme_fst_unsafe hCsafe a ha
  have h10 : ∀ c ∈ (pyUrlparse u.data).netloc.map pyLower,
      isUnsafeUrlByte c = false := by
    rw [hnl]
    intro c hc
    simp only [List.mem_map] at hc
    obtain ⟨a, ha, rfl⟩ := hc
    rw [pyLower_unsafe_byte]
    exact hCsafe a (hBsub.subset (splitNetloc_fst_mem _ a ha))
  have h11 : ∀ c ∈ normSlashPath (pyUrlparse u.data).path,
      isUnsafeUrlByte c = false := by
    rw [hpa]
    intro c hc
    rcases normSlashPath_mem hc with h | rfl
    · exact hCsafe c (hBsub.subset (hRsub.subset (path0_mem h).1))
    · decide
  have h12 : (pyUrlparse u.data).netloc.map pyLower ≠ [] →
      (normSlashPath (pyUrlparse u.data).path).head? = some '/' := by
    intro hne
    rw [hpa]
    apply normSlashPath_head
    apply path0_head_of_delim
    rcases splitNetloc_shape (splitScheme (urlsplitClean u.data)).2 with h | h
    · exfalso
      apply hne
      simp [hnl, h]
    · exact h
  have h13 : (pyUrlparse u.data).netloc.map pyLower = [] →
      (normSlashPath (pyUrlparse u.data).path).take 2 ≠ ['/', '/'] := by
    intro hne
    rcases hshape with h | h
    · exact absurd (by simpa using hne) h
    · exact h
  have h14 : (pyUrlparse u.data).netloc.map pyLower = [] →
      (pyUrlparse u.data).scheme.map pyLower = [] →
      splitScheme (normSlashPath (pyUrlparse u.data).path) =
        ([], normSlashPath (pyUrlparse u.data).path) ∧
      (∃ c t, normSlashPath (pyUrlparse u.data).path = c :: t ∧
        isC0OrSpace c = false) := by
    intro _hHe hSe
    have hS0 : (splitScheme (urlsplitClean u.data)).1 = [] := by
      have h' : (pyUrlparse u.data).scheme = [] := by simpa using hSe
      rw [hsc] at h'
      exact h'
    rw [hpa]
    rcases splitNetloc_shape (splitScheme (urlsplitClean u.data)).2 with hn | hn
    · have hR : (splitNetloc (splitScheme (urlsplitClean u.data)).2).2 =
          (splitScheme (urlsplitClean u.data)).2 := by
        rw [hn]
      have hBC : (splitScheme (urlsplitClean u.data)).2 = urlsplitClean u.data := by
        rw [splitScheme_of_fst_empty hS0]
      rcases normSlashPath_shape
          (((splitNetloc (splitScheme (urlsplitClean u.data)).2).2.takeWhile
            (· ≠ '#')).takeWhile (· ≠ '?')) with ha | ⟨_, _, hpre, hne2⟩
      · rw [ha]
        exact ⟨splitScheme_head_not_alpha (by decide), ⟨'/', [], rfl, by decide⟩⟩
      · have hpre2 : List.IsPrefix
            (normSlashPath
              (((splitNetloc (splitScheme (urlsplitClean u.data)).2).2.takeWhile
                (· ≠ '#')).takeWhile (· ≠ '?')))
            (urlsplitClean u.data) := by
          refine hpre.trans ?_
          refine (List.takeWhile_prefix _).trans ?_
          refine (List.takeWhile_prefix _).trans ?_
          rw [hR, hBC]
        refine ⟨splitScheme_prefix_fail hpre2 hS0, ?_⟩
        rcases urlsplitClean_head u.data with hC0 | ⟨c, t, hCt, hc0⟩
        · exfalso
          exact hne2 (List.prefix_nil.mp (by rw [← hC0]; exact hpre2))
        · have hhead := head_of_prefix_eq hpre2 hne2
          cases hP0 : normSlashPath
              (((splitNetloc (splitScheme (urlsplitClean u.data)).2).2.takeWhile
                (· ≠ '#')).takeWhile (· ≠ '?')) with
          | nil => exact absurd hP0 hne2
          | cons c0 t0 =>
            have hcc : c = c0 := by
              have h' : (c :: t).head? = (c0 :: t0).head? := by
                rw [← hCt, ← hP0]
                exact hhead
              simpa using h'
            exact ⟨c0, t0, rfl, by rw [← hcc]; exact hc0⟩
    · have hph := path0_head_of_delim hn
      have hh2 := normSlashPath_head hph
      cases hP0 : normSlashPath
          (((splitNetloc (splitScheme (urlsplitClean u.data)).2).2.takeWhile
            (· ≠ '#')).takeWhile (· ≠ '?')) with
      | nil =>
        rw [hP0] at hh2
        exact absurd hh2 (by simp)
      | cons c0 t0 =>
        rw [hP0] at hh2
        simp only [List.head?_cons, Option.some.injEq] at hh2
        subst hh2
        exact ⟨splitScheme_head_not_alpha (by decide), ⟨'/', t0, rfl, by decide⟩⟩
  have hrt := normalize_unsplit_roundtrip ((pyUrlparse u.data).scheme.map pyLower)
    ((pyUrlparse u.data).netloc.map pyLower)
    (normSlashPath (pyUrlparse u.data).path)
    h1 h2 h3 h4 h5 h6 h7 h8 h9 h10 h11 h12 h13 h14
  rw [normalize_url_eq u]
  rw [normalize_url_eq]
  exact congrArg String.mk hrt

/-- C6 counterexample: normalization is not idempotent in general. The
`;x` tail of `http://h/a;x/` is parsed as the path on the first pass but
as params on the second (the first pass exposes a `;` in the last path
segment to `urlparse`), so a second normalization changes the URL again. -/
theorem url_normalize_idempotent_counterexample :
    normalize_url "http://h/a;x/" = "http://h/a;x" ∧
    normalize_url (normalize_url "http://h/a;x/") = "http://h/a" ∧
    normalize_url (normalize_url "http://h/a;x/") ≠
      normalize_url "http://h/a;x/" := by
  refine ⟨?_, ?_, ?_⟩ <;> decide

/-- C6 witness: the amended idempotence theorem applies to a concrete
mixed-case URL with a trailing slash. -/
theorem url_normalize_idempotent_amended_witness :
    (';' ∉ "HTTP://Ex.com/About/".data) ∧
    ((pyUrlparse "HTTP://Ex.com/About/".data).netloc ≠ [] ∨
      (normSlashPath (pyUrlparse "HTTP://Ex.com/About/".data).path).take 2 ≠
        ['/', '/']) ∧
    normalize_url (normalize_url "HTTP://Ex.com/About/") =
      normalize_url "HTTP://Ex.com/About/" :=
  ⟨by decide, Or.inl (by decide),
    url_normalize_idempotent_amended "HTTP://Ex.com/About/" (by decide)
      (Or.inl (by decide))⟩

/-- `rstrip('/')` removes trailing slashes one at a time from the end. -/
theorem pyRstrip_eq_specDrop (l : List Char) :
    pyRstrip '/' l = specDropTrailingSlashes l := by
  induction l using List.reverseRecOn with
  | nil =>
    rw [specDropTrailingSlashes]
    simp [pyRstrip]
  | append_singleton l a ih =>
    by_cases hc : a = '/'
    · subst hc
      rw [specDropTrailingSlashes, dif_pos (by simp), List.dropLast_concat, ← ih]
      simp [pyRstrip]
    · rw [specDropTrailingSlashes, dif_neg (by simp [hc])]
      apply pyRstrip_eq_self
      simp [hc]

/-- C5: amended normalization rules. `normalize_url` lowercases scheme and
host, drops fragment, query and also path params, and removes every
trailing slash (not just one), substituting `/` for an emptied path; the
counterexample theorem shows the single-slash reading of the claim is
false. -/
theorem url_normalize_rules_amended (u : String) :
    normalize_url u = specNormalizeUrl u := by
  rw [normalize_url_eq]
  show String.mk (pyUrlunsplit
      ((pyUrlparse u.data).scheme.map pyLower)
      ((pyUrlparse u.data).netloc.map pyLower)
      (normSlashPath (pyUrlparse u.data).path) [] []) =
    String.mk (pyUrlunsplit
      ((pyUrlparse u.data).scheme.map pyLower)
      ((pyUrlparse u.data).netloc.map pyLower)
      (if (specDropTrailingSlashes (pyUrlparse u.data).path).isEmpty then ['/']
       else specDropTrailingSlashes (pyUrlparse u.data).path) [] [])
  rw [normSlashPath_def, pyRstrip_eq_specDrop]

/-- C5 counterexample: on a double trailing slash the code strips both
slashes, while the claimed rule (strip one trailing slash) leaves one. -/
theorem url_normalize_rules_counterexample :
    normalize_url "http://example.com/a//" = "http://example.com/a" ∧
    claimedNormalizeUrl "http://example.com/a//" = "http://example.com/a/" ∧
    normalize_url "http://example.com/a//" ≠
      claimedNormalizeUrl "http://example.com/a//" := by
  refine ⟨?_, ?_, ?_⟩ <;> decide
